import Mathlib

/-!
# CacheLab `csim.c`: a shallow embedding of the cache simulator

The C program keeps its configuration (`S`, `K`, `B`, `policy`), its line grid
(`sets`) and its three counters in globals.  Here the configuration is a value
`Config`, the grid and the counters are a value `Cache`, and every function of
the source that mutates the globals becomes a function `Cache → Cache`.

Conventions of the embedding.

* `unsigned long` values are natural numbers below `2 ^ 64`; additions on them
  are reduced modulo `2 ^ 64` where the source can wrap.
* The conversion `(int) x` of an `unsigned long` keeps the low 32 bits and reads
  them in two's complement (`toInt32`).
* `int` counters and `numops` are integers.  Signed overflow is undefined in C,
  so the embedding describes the runs in which no `int` overflows; every run of
  fewer than `2 ^ 31` accesses is such a run, since a counter grows and a
  `numops` shrinks by at most one per access.
* `valid` is only ever written with `0` or `1` and only read as a truth value,
  so it is a `Bool`.
* `sets` is a list of rows, each row a list of lines; `allocate_cache` builds
  `S` rows of `K` lines.  Reads go through `lineAt`/`rowAt`.
* Output (`printf` under `verbose`) is not part of the state and is left out.
-/

namespace CacheLab

/-! ## Configuration and data structures -/

/-- The source's `typedef enum { FIFO = 1, LRU = 2 } Policy`. -/
inductive Policy where
  | FIFO
  | LRU
  deriving DecidableEq

/-- The globals set by `parse_arguments`: sets, lines per set, bytes per line, policy. -/
structure Config where
  S : Nat
  K : Nat
  B : Nat
  policy : Policy
  deriving DecidableEq

/-- The source's `struct cacheline { int tag, valid, numops; }`. -/
structure cacheline where
  tag : Int
  valid : Bool
  numops : Int
  deriving DecidableEq

/-- The grid `sets` together with the three statistics counters. -/
structure Cache where
  sets : List (List cacheline)
  hit_count : Int
  miss_count : Int
  eviction_count : Int
  deriving DecidableEq

/-- The line written by `allocate_cache`: `tag = 0`, `valid = 0`, `numops = 0`. -/
def emptyLine : cacheline := ⟨0, false, 0⟩

/-- Read `row[j]`. -/
def lineAt (row : List cacheline) (j : Nat) : cacheline := row.getD j emptyLine

/-- Read `sets[i]`. -/
def rowAt (c : Cache) (i : Nat) : List cacheline := c.sets.getD i []

/-- The source's `allocate_cache`, with the counters at their initial value `0`. -/
def allocate_cache (cfg : Config) : Cache :=
  { sets := List.replicate cfg.S (List.replicate cfg.K emptyLine)
    hit_count := 0
    miss_count := 0
    eviction_count := 0 }

/-! ## Address decoding -/

/-- Leading zero bits of `x` among the bit positions `n - 1, ..., 0`, for `x < 2 ^ n`. -/
def clz_from : Nat → Nat → Nat
  | 0, _ => 0
  | n + 1, x => if 2 ^ n ≤ x then 0 else clz_from n x + 1

/-- The compiler intrinsic `__builtin_clz` on a 32-bit value `0 < x < 2 ^ 32`:
the number of leading zero bits. -/
def builtin_clz (x : Nat) : Nat := clz_from 32 x

/-- The source's `#define INT_LOG2(x) (31 - __builtin_clz(x))`. -/
def INT_LOG2 (x : Nat) : Nat := 31 - builtin_clz x

/-- The conversion `(int) x` of an unsigned value: low 32 bits, two's complement. -/
def toInt32 (x : Nat) : Int :=
  if x % 2 ^ 32 < 2 ^ 31 then ((x % 2 ^ 32 : Nat) : Int) else ((x % 2 ^ 32 : Nat) : Int) - 2 ^ 32

/-- The value of `set_ind` in `access_data`:
`(int) ((addr >> b) & ((1L << s) - 1))` with `b = INT_LOG2(B)`, `s = INT_LOG2(S)`. -/
def set_ind (cfg : Config) (addr : Nat) : Int :=
  toInt32 ((addr >>> INT_LOG2 cfg.B) &&& ((1 <<< INT_LOG2 cfg.S) - 1))

/-- The value of `t` in `access_data`: `(int) (addr >> (b + s))`. -/
def tag_of (cfg : Config) (addr : Nat) : Int :=
  toInt32 (addr >>> (INT_LOG2 cfg.B + INT_LOG2 cfg.S))

/-! ## One access -/

/-- The first loop of `access_data`: scan `row[i]`, `row[i+1]`, ... for `fuel` iterations
and return the first index whose line has `tag == t && valid`. -/
def hit_scan (row : List cacheline) (t : Int) : Nat → Nat → Option Nat
  | 0, _ => none
  | fuel + 1, i =>
    if (lineAt row i).tag = t ∧ (lineAt row i).valid = true then some i
    else hit_scan row t fuel (i + 1)

/-- The loop `for (j = 0; j < K; ++j) sets[set_ind][j].numops--;`. -/
def dec_all (K : Nat) (row : List cacheline) : List cacheline :=
  Nat.fold (fun j r => r.set j { lineAt r j with numops := (lineAt r j).numops - 1 }) K row

/-- The loop computing `lowind`: start at `0`, move to `k` whenever
`row[k].numops < row[lowind].numops`. -/
def find_lowind (K : Nat) (row : List cacheline) : Nat :=
  Nat.fold (fun k low => if (lineAt row k).numops < (lineAt row low).numops then k else low) K 0

/-- The refresh `row[i].numops = K` that follows the decrement loop. -/
def set_numops (row : List cacheline) (i : Nat) (K : Nat) : List cacheline :=
  row.set i { lineAt row i with numops := (K : Int) }

/-- The source's `access_data(addr)`. -/
def access_data (cfg : Config) (addr : Nat) (c : Cache) : Cache :=
  let si := (set_ind cfg addr).toNat
  let t := tag_of cfg addr
  let row := rowAt c si
  match hit_scan row t cfg.K 0 with
  | some i =>
    -- hit_count++; under LRU decrement every numops and set the hit line to K
    let row1 := match cfg.policy with
      | Policy.LRU => set_numops (dec_all cfg.K row) i cfg.K
      | Policy.FIFO => row
    { c with hit_count := c.hit_count + 1
             sets := c.sets.set si row1 }
  | none =>
    -- miss_count++; choose lowind, decrement every numops, set the victim to K,
    -- count an eviction when the victim is valid, then overwrite tag and valid
    let lowind := find_lowind cfg.K row
    let row1 := set_numops (dec_all cfg.K row) lowind cfg.K
    let evict := (lineAt row1 lowind).valid
    let row2 := row1.set lowind { lineAt row1 lowind with tag := t }
    let row3 := row2.set lowind { lineAt row2 lowind with valid := true }
    { c with miss_count := c.miss_count + 1
             eviction_count := if evict = true then c.eviction_count + 1 else c.eviction_count
             sets := c.sets.set si row3 }

/-- Run a sequence of `access_data` calls, first address first. -/
def run (cfg : Config) (addrs : List Nat) (c : Cache) : Cache :=
  addrs.foldl (fun st a => access_data cfg a st) c

/-! ## Trace replay -/

/-- The operation letter of a trace record that `replay_trace` acts on. -/
inductive Op where
  | L
  | S
  | M
  deriving DecidableEq

/-- The loop `for (m = start; m < limit; ++m) if (m % B == 0) body(m);` of `replay_trace`,
run for its `n = limit - start` iterations from `m`. -/
def boundary_loop {σ : Type} (B : Nat) (body : Nat → σ → σ) : Nat → Nat → σ → σ
  | 0, _, st => st
  | n + 1, m, st => boundary_loop B body n (m + 1) (if m % B = 0 then body m st else st)

/-- The body of `replay_trace` for one parsed record `op add,bytes`, over any state `σ`
and any implementation `acc` of the call `access_data(m)`.  `add + 1` and `add + bytes`
are `unsigned long` sums and wrap at `2 ^ 64`. -/
def replay_op {σ : Type} (cfg : Config) (acc : Nat → σ → σ) (op : Op) (add bytes : Nat)
    (st : σ) : σ :=
  let start := (add + 1) % 2 ^ 64
  let limit := (add + bytes) % 2 ^ 64
  match op with
  | Op.L => boundary_loop cfg.B acc (limit - start) start (acc add st)
  | Op.S => boundary_loop cfg.B acc (limit - start) start (acc add st)
  | Op.M =>
    boundary_loop cfg.B (fun m s => acc m (acc m s)) (limit - start) start (acc add (acc add st))

/-- One record replayed on the cache: every `access_data(m)` is the real `access_data`. -/
def replay_record (cfg : Config) (op : Op) (add bytes : Nat) (c : Cache) : Cache :=
  replay_op cfg (access_data cfg) op add bytes c

/-- The addresses passed to `access_data` while one record is replayed, in call order:
every `access_data(m)` appends `m` to a log. -/
def calls (cfg : Config) (op : Op) (add bytes : Nat) : List Nat :=
  replay_op cfg (fun m log => log ++ [m]) op add bytes []

/-- Whether `access_data(addr)` takes the hit branch in state `c`. -/
def is_hit (cfg : Config) (addr : Nat) (c : Cache) : Bool :=
  (hit_scan (rowAt c (set_ind cfg addr).toNat) (tag_of cfg addr) cfg.K 0).isSome

/-- The configurations that pass `parse_arguments`: `S` and `B` are powers of two that fit
an `int` (`NOT_POWER2` rejects the rest) and `K` is a positive `int`. -/
def Validated (cfg : Config) : Prop :=
  (∃ ks, ks ≤ 30 ∧ cfg.S = 2 ^ ks) ∧ (∃ kb, kb ≤ 30 ∧ cfg.B = 2 ^ kb) ∧
    0 < cfg.K ∧ cfg.K < 2 ^ 31

/-- The shape of the grid built by `allocate_cache`: `S` rows of `K` lines. -/
def WellFormed (cfg : Config) (c : Cache) : Prop :=
  c.sets.length = cfg.S ∧ ∀ row ∈ c.sets, row.length = cfg.K

/-! ## Auxiliary definitions used to state the results -/

/-- The condition tested by the hit loop on line `j`. -/
def Matches (row : List cacheline) (t : Int) (j : Nat) : Prop :=
  (lineAt row j).tag = t ∧ (lineAt row j).valid = true

instance (row : List cacheline) (t : Int) (j : Nat) : Decidable (Matches row t j) := by
  unfold Matches; exact inferInstance

/-- The order refresh shared by the LRU hit branch and the miss branch:
decrement every `numops`, then set line `i` to `K`. -/
def refresh (K : Nat) (row : List cacheline) (i : Nat) : List cacheline :=
  set_numops (dec_all K row) i K

/-- The row written back by the miss branch of `access_data`. -/
def miss_row (K : Nat) (row : List cacheline) (t : Int) : List cacheline :=
  let lowind := find_lowind K row
  let row1 := refresh K row lowind
  let row2 := row1.set lowind { lineAt row1 lowind with tag := t }
  row2.set lowind { lineAt row2 lowind with valid := true }

/-- The row written back by the hit branch of `access_data`. -/
def hit_row (cfg : Config) (row : List cacheline) (i : Nat) : List cacheline :=
  match cfg.policy with
  | Policy.LRU => refresh cfg.K row i
  | Policy.FIFO => row

/-- Every element of a list written twice in a row: `[a, b]` becomes `[a, a, b, b]`. -/
def double : List Nat → List Nat
  | [] => []
  | x :: xs => x :: x :: double xs

/-- The multiples of `B` among `start, start + 1, ..., start + n - 1`, in increasing order. -/
def boundaries (B start n : Nat) : List Nat :=
  (List.range' start n).filter (fun m => m % B = 0)

instance (cfg : Config) (c : Cache) : Decidable (WellFormed cfg c) := by
  unfold WellFormed; exact inferInstance

/-- The row `sets[set_ind]` that `access_data(addr)` works on. -/
def target (cfg : Config) (addr : Nat) (c : Cache) : List cacheline :=
  rowAt c (set_ind cfg addr).toNat

/-- The line index `lowind` that `access_data(addr)` would fill on a miss in state `c`. -/
def victim (cfg : Config) (addr : Nat) (c : Cache) : Nat :=
  find_lowind cfg.K (target cfg addr c)

/-- A cache together with the history of the accesses that produced it: `now` counts the
accesses so far, `touch s j` is the position in the sequence of the last access that hit
or filled line `j` of set `s`, and `fill s j` the position of the last access that
filled it (a miss whose victim it was); `none` when there was no such access. -/
structure Hist where
  c : Cache
  now : Nat
  touch : Nat → Nat → Option Nat
  fill : Nat → Nat → Option Nat

/-- Record position `now` for line `j` of set `s`. -/
def stamp (f : Nat → Nat → Option Nat) (s j now : Nat) : Nat → Nat → Option Nat :=
  fun s2 j2 => if s2 = s ∧ j2 = j then some now else f s2 j2

/-- The freshly allocated cache with the empty history. -/
def Hist.init (cfg : Config) : Hist :=
  { c := allocate_cache cfg, now := 0, touch := fun _ _ => none, fill := fun _ _ => none }

/-- One `access_data(a)` with its history entry: a hit touches the line it found, a miss
touches and fills the victim line. -/
def Hist.step (cfg : Config) (h : Hist) (a : Nat) : Hist :=
  match hit_scan (target cfg a h.c) (tag_of cfg a) cfg.K 0 with
  | some i =>
    { c := access_data cfg a h.c, now := h.now + 1
      touch := stamp h.touch (set_ind cfg a).toNat i h.now
      fill := h.fill }
  | none =>
    { c := access_data cfg a h.c, now := h.now + 1
      touch := stamp h.touch (set_ind cfg a).toNat (victim cfg a h.c) h.now
      fill := stamp h.fill (set_ind cfg a).toNat (victim cfg a h.c) h.now }

/-- The history of a sequence of `access_data` calls from the freshly allocated cache. -/
def history (cfg : Config) (addrs : List Nat) : Hist :=
  addrs.foldl (Hist.step cfg) (Hist.init cfg)

/-- The positions that the `numops` order of a policy follows: last touch under LRU, last
fill under FIFO. -/
def Hist.ord (cfg : Config) (h : Hist) : Nat → Nat → Option Nat :=
  match cfg.policy with
  | Policy.LRU => h.touch
  | Policy.FIFO => h.fill

/-- The relation between the `numops` of a row and the recorded positions `st` of its
lines: valid lines are the recorded ones, a later position means a larger `numops`, and
an unrecorded (invalid) line is below every recorded one. -/
structure RowInv (K now : Nat) (row : List cacheline) (st : Nat → Option Nat) : Prop where
  len : row.length = K
  le_K : ∀ j, j < K → (lineAt row j).numops ≤ (K : Int)
  valid_iff : ∀ j, j < K → ((lineAt row j).valid = true ↔ ∃ τ, st j = some τ)
  lt_now : ∀ j τ, j < K → st j = some τ → τ < now
  order : ∀ j1 j2 τ1 τ2, j1 < K → j2 < K → st j1 = some τ1 → st j2 = some τ2 →
    (τ1 < τ2 ↔ (lineAt row j1).numops < (lineAt row j2).numops)
  inj : ∀ j1 j2 τ, j1 < K → j2 < K → st j1 = some τ → st j2 = some τ → j1 = j2
  invalid_lt : ∀ j1 j2 τ, j1 < K → j2 < K → st j1 = none → st j2 = some τ →
    (lineAt row j1).numops < (lineAt row j2).numops

/-- The invariant of a run: the grid has its shape and every row is ordered as its policy
requires. -/
def HistInv (cfg : Config) (h : Hist) : Prop :=
  WellFormed cfg h.c ∧ ∀ s, s < cfg.S → RowInv cfg.K h.now (rowAt h.c s) (h.ord cfg s)

/-- What `access_data(addr)` does to the row `sets[set_ind]`: the row written back by the
hit branch or by the miss branch. -/
def row_step (cfg : Config) (addr : Nat) (row : List cacheline) : List cacheline :=
  match hit_scan row (tag_of cfg addr) cfg.K 0 with
  | some i => hit_row cfg row i
  | none => miss_row cfg.K row (tag_of cfg addr)

/-- The loop of `replay_trace` over the records parsed from the trace file: each record
`(op, add, bytes)` with `op` one of `L`, `S`, `M` is replayed in turn (lines with another
operation letter are skipped by the source and are not records). -/
def replay_trace (cfg : Config) (recs : List (Op × Nat × Nat)) (c : Cache) : Cache :=
  recs.foldl (fun st r => replay_record cfg r.1 r.2.1 r.2.2 st) c

/-- The addresses passed to `access_data` while a whole trace is replayed, in call order. -/
def trace_calls (cfg : Config) : List (Op × Nat × Nat) → List Nat
  | [] => []
  | r :: rs => calls cfg r.1 r.2.1 r.2.2 ++ trace_calls cfg rs

/-- Two caches agree on the counters and on the valid flag and tag of every line. -/
def Agree (c1 c2 : Cache) : Prop :=
  c1.hit_count = c2.hit_count ∧ c1.miss_count = c2.miss_count ∧
  c1.eviction_count = c2.eviction_count ∧
  ∀ s j, (lineAt (rowAt c1 s) j).valid = (lineAt (rowAt c2 s) j).valid ∧
    (lineAt (rowAt c1 s) j).tag = (lineAt (rowAt c2 s) j).tag

/-! ### `access_data` with every array index checked

The same steps as `access_data`, but each read `sets[set_ind][j]` and each write to it
fails with `none` when the index is outside the array it indexes. -/

/-- Checked read of `row[j]`. -/
def read_line (row : List cacheline) (j : Nat) : Option cacheline := row[j]?

/-- Checked write of `row[j]`. -/
def write_line (row : List cacheline) (j : Nat) (x : cacheline) : Option (List cacheline) :=
  if j < row.length then some (row.set j x) else none

/-- The hit loop with checked reads: the outer `none` is an index out of bounds. -/
def hit_scan_checked (row : List cacheline) (t : Int) : Nat → Nat → Option (Option Nat)
  | 0, _ => some none
  | fuel + 1, i =>
    match read_line row i with
    | none => none
    | some l =>
      if l.tag = t ∧ l.valid = true then some (some i)
      else hit_scan_checked row t fuel (i + 1)

/-- The decrement loop with checked reads and writes. -/
def dec_all_checked (K : Nat) (row : List cacheline) : Option (List cacheline) :=
  Nat.fold (fun j r => r.bind (fun r =>
    (read_line r j).bind (fun l => write_line r j { l with numops := l.numops - 1 })))
    K (some row)

/-- The `lowind` loop with checked reads. -/
def find_lowind_checked (K : Nat) (row : List cacheline) : Option Nat :=
  Nat.fold (fun k low => low.bind (fun low =>
    (read_line row k).bind (fun lk =>
      (read_line row low).bind (fun ll =>
        some (if lk.numops < ll.numops then k else low)))))
    K (some 0)

/-- The refresh `row[i].numops = K` with a checked write. -/
def set_numops_checked (row : List cacheline) (i : Nat) (K : Nat) : Option (List cacheline) :=
  (read_line row i).bind (fun l => write_line row i { l with numops := (K : Int) })

/-- The source's `access_data(addr)` with every index checked: `none` as soon as
`set_ind` is negative or not below the number of rows, or a line index is not below the
length of the row. -/
def access_data_checked (cfg : Config) (addr : Nat) (c : Cache) : Option Cache :=
  if set_ind cfg addr < 0 then none
  else
    let si := (set_ind cfg addr).toNat
    let t := tag_of cfg addr
    match c.sets[si]? with
    | none => none
    | some row =>
      match hit_scan_checked row t cfg.K 0 with
      | none => none
      | some (some i) =>
        match cfg.policy with
        | Policy.LRU =>
          (dec_all_checked cfg.K row).bind (fun r =>
            (set_numops_checked r i cfg.K).bind (fun row1 =>
              some { c with hit_count := c.hit_count + 1
                            sets := c.sets.set si row1 }))
        | Policy.FIFO =>
          some { c with hit_count := c.hit_count + 1
                        sets := c.sets.set si row }
      | some none =>
        (find_lowind_checked cfg.K row).bind (fun lowind =>
          (dec_all_checked cfg.K row).bind (fun r =>
            (set_numops_checked r lowind cfg.K).bind (fun row1 =>
              (read_line row1 lowind).bind (fun l1 =>
                (write_line row1 lowind { l1 with tag := t }).bind (fun row2 =>
                  (read_line row2 lowind).bind (fun l2 =>
                    (write_line row2 lowind { l2 with valid := true }).bind (fun row3 =>
                      some { c with miss_count := c.miss_count + 1
                                    eviction_count :=
                                      if l1.valid = true then c.eviction_count + 1
                                      else c.eviction_count
                                    sets := c.sets.set si row3 })))))))

/-- A sequence of checked `access_data` calls: `none` as soon as one call is out of
bounds. -/
def run_checked (cfg : Config) : List Nat → Cache → Option Cache
  | [], c => some c
  | a :: as, c => (access_data_checked cfg a c).bind (run_checked cfg as)

/-- The first `n` accesses of the cyclic pattern `a 0, a 1, ..., a K, a 0, a 1, ...`. -/
def cyc (a : Nat → Nat) (K n : Nat) : List Nat :=
  (List.range n).map (fun m => a (m % (K + 1)))

/-- Line `j` of the set after `n` accesses of the cyclic pattern under LRU, `t i` being the
tag of `a i`: lines `j ≥ n` are still invalid; line `j < n` was filled by the last access
`m < n` with `m mod K = j`, which is `r = (n - 1 - j) mod K` accesses old. -/
def cyc_line (K : Nat) (t : Nat → Int) (n j : Nat) : cacheline :=
  if j < n then
    ⟨t ((n - 1 - (n - 1 - j) % K) % (K + 1)), true, (K : Int) - (((n - 1 - j) % K : Nat) : Int)⟩
  else ⟨0, false, -(n : Int)⟩

/-! ## Address decoding: lemmas -/

theorem clz_from_two_pow (n k : Nat) (h : k < n) : clz_from n (2 ^ k) = n - 1 - k := by
  induction n with
  | zero => omega
  | succ n ih =>
    unfold clz_from
    by_cases hk : k = n
    · subst hk; simp
    · have hlt : k < n := by omega
      have : ¬ 2 ^ n ≤ 2 ^ k := by
        have := Nat.pow_lt_pow_right (a := 2) (by norm_num) hlt
        omega
      rw [if_neg this, ih hlt]; omega

theorem INT_LOG2_two_pow (k : Nat) (h : k ≤ 31) : INT_LOG2 (2 ^ k) = k := by
  unfold INT_LOG2 builtin_clz
  rw [clz_from_two_pow 32 k (by omega)]; omega

theorem toInt32_small (x : Nat) (h : x < 2 ^ 31) : toInt32 x = (x : Int) := by
  unfold toInt32
  have h1 : x % 2 ^ 32 = x := Nat.mod_eq_of_lt (by omega)
  rw [h1, if_pos h]

theorem set_ind_eq (ks kb K : Nat) (p : Policy) (a : Nat) (hs : ks ≤ 30) (hb : kb ≤ 30) :
    set_ind ⟨2 ^ ks, K, 2 ^ kb, p⟩ a = (((a >>> kb) &&& (2 ^ ks - 1) : Nat) : Int) := by
  unfold set_ind
  simp only [INT_LOG2_two_pow ks (by omega), INT_LOG2_two_pow kb (by omega)]
  have h1 : (1 <<< ks : Nat) = 2 ^ ks := by simp [Nat.shiftLeft_eq]
  rw [h1]
  apply toInt32_small
  have h2 : (a >>> kb) &&& (2 ^ ks - 1) ≤ 2 ^ ks - 1 := Nat.and_le_right
  have h3 : 2 ^ ks ≤ 2 ^ 30 := Nat.pow_le_pow_right (by norm_num) hs
  have h4 : 0 < 2 ^ ks := by positivity
  omega

theorem land_pred_two_pow (x k : Nat) : x &&& (2 ^ k - 1) = x % 2 ^ k := by
  exact Nat.and_pow_two_sub_one_eq_mod x k

/-! ## The loops of `access_data`, line by line -/

theorem lineAt_set (row : List cacheline) (i j : Nat) (x : cacheline) :
    lineAt (row.set i x) j = if i = j ∧ i < row.length then x else lineAt row j := by
  unfold lineAt
  simp only [List.getD_eq_getElem?_getD, List.getElem?_set]
  by_cases h : i = j
  · subst h
    by_cases h2 : i < row.length
    · simp [h2]
    · simp [h2, List.getElem?_eq_none (Nat.le_of_not_lt h2)]
  · simp [h]

theorem lineAt_of_le (row : List cacheline) (j : Nat) (h : row.length ≤ j) :
    lineAt row j = emptyLine := by
  unfold lineAt
  simp [List.getElem?_eq_none h]

theorem dec_all_succ (n : Nat) (row : List cacheline) :
    dec_all (n + 1) row =
      (dec_all n row).set n
        { lineAt (dec_all n row) n with numops := (lineAt (dec_all n row) n).numops - 1 } := rfl

theorem length_dec_all (K : Nat) (row : List cacheline) :
    (dec_all K row).length = row.length := by
  induction K with
  | zero => rfl
  | succ n ih => rw [dec_all_succ, List.length_set, ih]

theorem lineAt_dec_all (K : Nat) (row : List cacheline) (j : Nat) (hj : j < row.length) :
    lineAt (dec_all K row) j =
      if j < K then { lineAt row j with numops := (lineAt row j).numops - 1 }
      else lineAt row j := by
  induction K with
  | zero => simp [dec_all, Nat.fold]
  | succ n ih =>
    rw [dec_all_succ, lineAt_set, length_dec_all]
    by_cases h : n = j
    · subst h
      rw [if_pos ⟨rfl, hj⟩, ih, if_neg (Nat.lt_irrefl _), if_pos (Nat.lt_succ_self _)]
    · rw [if_neg (fun hh => h hh.1), ih]
      by_cases h2 : j < n
      · rw [if_pos h2, if_pos (by omega)]
      · rw [if_neg h2, if_neg (by omega)]

theorem length_set_numops (row : List cacheline) (i K : Nat) :
    (set_numops row i K).length = row.length := by
  unfold set_numops; simp

theorem lineAt_set_numops (row : List cacheline) (i K j : Nat) :
    lineAt (set_numops row i K) j =
      if i = j ∧ i < row.length then { lineAt row i with numops := (K : Int) }
      else lineAt row j := by
  unfold set_numops; rw [lineAt_set]

theorem find_lowind_succ (n : Nat) (row : List cacheline) :
    find_lowind (n + 1) row =
      if (lineAt row n).numops < (lineAt row (find_lowind n row)).numops then n
      else find_lowind n row := rfl

/-- The victim index is below `K`, its `numops` is minimal among lines `0 .. K-1`, and
every line before it has a strictly larger `numops`. -/
theorem find_lowind_spec (K : Nat) (row : List cacheline) :
    (0 < K → find_lowind K row < K) ∧ (K = 0 → find_lowind K row = 0) ∧
    (∀ j, j < K → (lineAt row (find_lowind K row)).numops ≤ (lineAt row j).numops) ∧
    (∀ j, j < find_lowind K row →
      (lineAt row (find_lowind K row)).numops < (lineAt row j).numops) := by
  induction K with
  | zero => exact ⟨fun h => absurd h (Nat.lt_irrefl 0), fun _ => rfl, fun j hj => by omega,
      fun j hj => by simp [find_lowind, Nat.fold] at hj⟩
  | succ n ih =>
    obtain ⟨h1, h0, h2, h3⟩ := ih
    rw [find_lowind_succ]
    by_cases hlt : (lineAt row n).numops < (lineAt row (find_lowind n row)).numops
    · simp only [if_pos hlt]
      refine ⟨fun _ => Nat.lt_succ_self n, fun h => by omega, ?_, ?_⟩
      · intro j hj
        by_cases hjn : j = n
        · subst hjn; exact le_refl _
        · have := h2 j (by omega); omega
      · intro j hj
        have := h2 j hj; omega
    · simp only [if_neg hlt]
      refine ⟨fun _ => ?_, fun h => by omega, ?_, h3⟩
      · by_cases hn : n = 0
        · rw [h0 hn]; omega
        · have := h1 (by omega); omega
      · intro j hj
        by_cases hjn : j = n
        · subst hjn; omega
        · exact h2 j (by omega)

theorem find_lowind_lt (K : Nat) (row : List cacheline) (hK : 0 < K) :
    find_lowind K row < K := (find_lowind_spec K row).1 hK

theorem find_lowind_le (K : Nat) (row : List cacheline) (j : Nat) (hj : j < K) :
    (lineAt row (find_lowind K row)).numops ≤ (lineAt row j).numops :=
  (find_lowind_spec K row).2.2.1 j hj

theorem hit_scan_some (row : List cacheline) (t : Int) (fuel i k : Nat) :
    hit_scan row t fuel i = some k ↔
      i ≤ k ∧ k < i + fuel ∧ Matches row t k ∧ ∀ j, i ≤ j → j < k → ¬ Matches row t j := by
  induction fuel generalizing i with
  | zero =>
    simp only [hit_scan, Nat.add_zero]
    constructor
    · intro h; cases h
    · rintro ⟨h1, h2, _⟩; omega
  | succ n ih =>
    unfold hit_scan
    by_cases h : (lineAt row i).tag = t ∧ (lineAt row i).valid = true
    · rw [if_pos h]
      constructor
      · intro hk
        have hk2 : i = k := by simpa using hk
        subst hk2
        exact ⟨le_refl _, by omega, h, fun j h1 h2 => by omega⟩
      · rintro ⟨h1, _, _, h4⟩
        by_cases hik : i = k
        · rw [hik]
        · exact absurd h (h4 i (le_refl _) (by omega))
    · rw [if_neg h, ih]
      constructor
      · rintro ⟨h1, h2, h3, h4⟩
        refine ⟨by omega, by omega, h3, fun j hj1 hj2 => ?_⟩
        by_cases hji : j = i
        · subst hji; exact h
        · exact h4 j (by omega) hj2
      · rintro ⟨h1, h2, h3, h4⟩
        have hik : i ≠ k := by
          intro hik; subst hik; exact h h3
        exact ⟨by omega, by omega, h3, fun j hj1 hj2 => h4 j (by omega) hj2⟩

theorem hit_scan_none (row : List cacheline) (t : Int) (fuel i : Nat) :
    hit_scan row t fuel i = none ↔ ∀ j, i ≤ j → j < i + fuel → ¬ Matches row t j := by
  induction fuel generalizing i with
  | zero =>
    simp only [hit_scan, Nat.add_zero]
    exact ⟨fun _ j h1 h2 => by omega, fun _ => trivial⟩
  | succ n ih =>
    unfold hit_scan
    by_cases h : (lineAt row i).tag = t ∧ (lineAt row i).valid = true
    · rw [if_pos h]
      constructor
      · intro hh; cases hh
      · intro hh; exact absurd h (hh i (le_refl _) (by omega))
    · rw [if_neg h, ih]
      constructor
      · intro hh j hj1 hj2
        by_cases hji : j = i
        · subst hji; exact h
        · exact hh j (by omega) (by omega)
      · intro hh j hj1 hj2
        exact hh j (by omega) (by omega)

/-! ## One access, row by row -/

theorem length_refresh (K : Nat) (row : List cacheline) (i : Nat) :
    (refresh K row i).length = row.length := by
  unfold refresh; rw [length_set_numops, length_dec_all]

theorem lineAt_refresh (K : Nat) (row : List cacheline) (i j : Nat)
    (hlen : row.length = K) (hi : i < K) (hj : j < K) :
    lineAt (refresh K row i) j =
      if j = i then { lineAt row i with numops := (K : Int) }
      else { lineAt row j with numops := (lineAt row j).numops - 1 } := by
  unfold refresh
  rw [lineAt_set_numops, length_dec_all]
  by_cases h : j = i
  · subst h
    rw [if_pos ⟨rfl, by omega⟩, if_pos rfl, lineAt_dec_all _ _ _ (by omega), if_pos hj]
  · rw [if_neg (fun hh => h hh.1.symm), if_neg h, lineAt_dec_all _ _ _ (by omega), if_pos hj]

theorem length_miss_row (K : Nat) (row : List cacheline) (t : Int) :
    (miss_row K row t).length = row.length := by
  unfold miss_row; simp [length_refresh]

theorem lineAt_miss_row (K : Nat) (row : List cacheline) (t : Int) (j : Nat)
    (hlen : row.length = K) (hj : j < K) :
    lineAt (miss_row K row t) j =
      if j = find_lowind K row then ⟨t, true, (K : Int)⟩
      else { lineAt row j with numops := (lineAt row j).numops - 1 } := by
  have hv : find_lowind K row < K := find_lowind_lt K row (by omega)
  unfold miss_row
  simp only [lineAt_set, List.length_set, length_refresh]
  by_cases h : j = find_lowind K row
  · subst h
    simp [hlen, hv, lineAt_refresh K row _ _ hlen hv hv]
  · have h2 : ¬ (find_lowind K row = j ∧ find_lowind K row < row.length) := fun hh => h hh.1.symm
    simp only [if_neg h2, if_neg h]
    rw [lineAt_refresh K row _ _ hlen hv hj, if_neg h]

theorem lineAt_hit_row_lru (cfg : Config) (row : List cacheline) (i j : Nat)
    (hp : cfg.policy = Policy.LRU) (hlen : row.length = cfg.K) (hi : i < cfg.K)
    (hj : j < cfg.K) :
    lineAt (hit_row cfg row i) j =
      if j = i then { lineAt row i with numops := (cfg.K : Int) }
      else { lineAt row j with numops := (lineAt row j).numops - 1 } := by
  unfold hit_row; rw [hp]; exact lineAt_refresh cfg.K row i j hlen hi hj

theorem hit_row_fifo (cfg : Config) (row : List cacheline) (i : Nat)
    (hp : cfg.policy = Policy.FIFO) : hit_row cfg row i = row := by
  unfold hit_row; rw [hp]

theorem length_hit_row (cfg : Config) (row : List cacheline) (i : Nat) :
    (hit_row cfg row i).length = row.length := by
  unfold hit_row; cases cfg.policy <;> simp [length_refresh]

/-- The hit branch of `access_data`, in one equation. -/
theorem access_data_hit (cfg : Config) (a : Nat) (c : Cache) (i : Nat)
    (h : hit_scan (rowAt c (set_ind cfg a).toNat) (tag_of cfg a) cfg.K 0 = some i) :
    access_data cfg a c =
      { c with hit_count := c.hit_count + 1
               sets := c.sets.set (set_ind cfg a).toNat
                 (hit_row cfg (rowAt c (set_ind cfg a).toNat) i) } := by
  unfold access_data
  simp only [h, hit_row, refresh]

/-- The miss branch of `access_data`, in one equation. -/
theorem access_data_miss (cfg : Config) (a : Nat) (c : Cache)
    (h : hit_scan (rowAt c (set_ind cfg a).toNat) (tag_of cfg a) cfg.K 0 = none) :
    access_data cfg a c =
      { c with miss_count := c.miss_count + 1
               eviction_count :=
                 if (lineAt (refresh cfg.K (rowAt c (set_ind cfg a).toNat)
                      (find_lowind cfg.K (rowAt c (set_ind cfg a).toNat)))
                      (find_lowind cfg.K (rowAt c (set_ind cfg a).toNat))).valid = true
                 then c.eviction_count + 1 else c.eviction_count
               sets := c.sets.set (set_ind cfg a).toNat
                 (miss_row cfg.K (rowAt c (set_ind cfg a).toNat) (tag_of cfg a)) } := by
  unfold access_data
  simp only [h, miss_row, refresh]

theorem set_ind_toNat_lt (cfg : Config) (hv : Validated cfg) (a : Nat) :
    (set_ind cfg a).toNat < cfg.S := by
  obtain ⟨⟨ks, hks, hS⟩, ⟨kb, hkb, hB⟩, _, _⟩ := hv
  obtain ⟨S, K, B, p⟩ := cfg
  simp only at hS hB
  subst hS hB
  rw [set_ind_eq ks kb K p a hks hkb, land_pred_two_pow]
  simp only [Int.toNat_ofNat]
  exact Nat.mod_lt _ (by positivity)

theorem rowAt_length (cfg : Config) (c : Cache) (hw : WellFormed cfg c) (i : Nat)
    (hi : i < cfg.S) : (rowAt c i).length = cfg.K := by
  apply hw.2
  unfold rowAt
  have hi2 : i < c.sets.length := by rw [hw.1]; exact hi
  simp [List.getElem?_eq_getElem hi2]

theorem rowAt_set (c : Cache) (i k : Nat) (r : List cacheline) (h m e : Int) :
    rowAt { sets := c.sets.set i r, hit_count := h, miss_count := m, eviction_count := e } k =
      if i = k ∧ i < c.sets.length then r else rowAt c k := by
  unfold rowAt
  simp only [List.getD_eq_getElem?_getD, List.getElem?_set]
  by_cases hik : i = k
  · subst hik
    by_cases h2 : i < c.sets.length
    · simp [h2]
    · simp [h2, List.getElem?_eq_none (Nat.le_of_not_lt h2)]
  · simp [hik]

/-! ## Counters of one access -/

theorem is_hit_iff (cfg : Config) (a : Nat) (c : Cache) :
    is_hit cfg a c = true ↔
      ∃ i, i < cfg.K ∧ (lineAt (rowAt c (set_ind cfg a).toNat) i).valid = true ∧
        (lineAt (rowAt c (set_ind cfg a).toNat) i).tag = tag_of cfg a := by
  unfold is_hit
  rw [Option.isSome_iff_exists]
  constructor
  · rintro ⟨i, hi⟩
    rw [hit_scan_some] at hi
    exact ⟨i, by omega, hi.2.2.1.2, hi.2.2.1.1⟩
  · rintro ⟨i, hi, hv, ht⟩
    cases hs : hit_scan (rowAt c (set_ind cfg a).toNat) (tag_of cfg a) cfg.K 0 with
    | some k => exact ⟨k, rfl⟩
    | none =>
      rw [hit_scan_none] at hs
      exact absurd ⟨ht, hv⟩ (hs i (Nat.zero_le _) (by omega))

theorem access_data_counters_hit (cfg : Config) (a : Nat) (c : Cache)
    (h : is_hit cfg a c = true) :
    (access_data cfg a c).hit_count = c.hit_count + 1 ∧
    (access_data cfg a c).miss_count = c.miss_count ∧
    (access_data cfg a c).eviction_count = c.eviction_count := by
  unfold is_hit at h
  rw [Option.isSome_iff_exists] at h
  obtain ⟨i, hi⟩ := h
  rw [access_data_hit cfg a c i hi]
  exact ⟨rfl, rfl, rfl⟩

theorem access_data_counters_miss (cfg : Config) (a : Nat) (c : Cache)
    (h : is_hit cfg a c = false) :
    (access_data cfg a c).hit_count = c.hit_count ∧
    (access_data cfg a c).miss_count = c.miss_count + 1 := by
  unfold is_hit at h
  have hn : hit_scan (rowAt c (set_ind cfg a).toNat) (tag_of cfg a) cfg.K 0 = none := by
    cases hs : hit_scan (rowAt c (set_ind cfg a).toNat) (tag_of cfg a) cfg.K 0 with
    | some k => rw [hs] at h; simp at h
    | none => rfl
  rw [access_data_miss cfg a c hn]
  exact ⟨rfl, rfl⟩

theorem run_append (cfg : Config) (xs ys : List Nat) (c : Cache) :
    run cfg (xs ++ ys) c = run cfg ys (run cfg xs c) := by
  unfold run; rw [List.foldl_append]

theorem run_cons (cfg : Config) (x : Nat) (xs : List Nat) (c : Cache) :
    run cfg (x :: xs) c = run cfg xs (access_data cfg x c) := rfl

theorem is_hit_false_iff (cfg : Config) (a : Nat) (c : Cache) :
    is_hit cfg a c = false ↔
      hit_scan (rowAt c (set_ind cfg a).toNat) (tag_of cfg a) cfg.K 0 = none := by
  unfold is_hit
  cases hit_scan (rowAt c (set_ind cfg a).toNat) (tag_of cfg a) cfg.K 0 <;> simp

theorem valid_refresh_self (K : Nat) (row : List cacheline) (i : Nat)
    (hlen : row.length = K) (hi : i < K) :
    (lineAt (refresh K row i) i).valid = (lineAt row i).valid := by
  rw [lineAt_refresh K row i i hlen hi hi, if_pos rfl]

/-- C4: when `access_data(a)` misses on a grid of `S` rows of `K` lines, `eviction_count`
grows by 1 if the victim line `lowind` was valid before the call and stays the same if it
was invalid, and after the call the victim line is valid and holds the tag decoded
from `a`. -/
theorem access_data_miss_eviction (cfg : Config) (a : Nat) (c : Cache)
    (hv : Validated cfg) (hw : WellFormed cfg c) (hm : is_hit cfg a c = false) :
    (access_data cfg a c).eviction_count =
      c.eviction_count +
        (if (lineAt (rowAt c (set_ind cfg a).toNat)
              (find_lowind cfg.K (rowAt c (set_ind cfg a).toNat))).valid = true
         then 1 else 0) ∧
    (lineAt (rowAt (access_data cfg a c) (set_ind cfg a).toNat)
        (find_lowind cfg.K (rowAt c (set_ind cfg a).toNat))).valid = true ∧
    (lineAt (rowAt (access_data cfg a c) (set_ind cfg a).toNat)
        (find_lowind cfg.K (rowAt c (set_ind cfg a).toNat))).tag = tag_of cfg a := by
  have hsi := set_ind_toNat_lt cfg hv a
  have hlen := rowAt_length cfg c hw _ hsi
  have hK : 0 < cfg.K := hv.2.2.1
  have hlow := find_lowind_lt cfg.K (rowAt c (set_ind cfg a).toNat) hK
  rw [access_data_miss cfg a c ((is_hit_false_iff cfg a c).1 hm)]
  refine ⟨?_, ?_, ?_⟩
  · simp only [valid_refresh_self cfg.K _ _ hlen hlow]
    split <;> simp
  · rw [rowAt_set, if_pos ⟨rfl, by rw [hw.1]; exact hsi⟩,
      lineAt_miss_row cfg.K _ _ _ hlen hlow, if_pos rfl]
  · rw [rowAt_set, if_pos ⟨rfl, by rw [hw.1]; exact hsi⟩,
      lineAt_miss_row cfg.K _ _ _ hlen hlow, if_pos rfl]

theorem validated_example : Validated ⟨1, 1, 1, Policy.LRU⟩ :=
  ⟨⟨0, by decide, rfl⟩, ⟨0, by decide, rfl⟩, by decide, by decide⟩

/-- The witness of C4: the first access to the fresh one-line cache misses, fills line 0
and counts no eviction. -/
theorem access_data_miss_eviction_witness :
    (access_data ⟨1, 1, 1, Policy.LRU⟩ 0 (allocate_cache ⟨1, 1, 1, Policy.LRU⟩)).eviction_count
        = 0 + (if (lineAt (rowAt (allocate_cache ⟨1, 1, 1, Policy.LRU⟩)
                (set_ind ⟨1, 1, 1, Policy.LRU⟩ 0).toNat)
              (find_lowind 1 (rowAt (allocate_cache ⟨1, 1, 1, Policy.LRU⟩)
                (set_ind ⟨1, 1, 1, Policy.LRU⟩ 0).toNat))).valid = true then 1 else 0) ∧
    (lineAt (rowAt (access_data ⟨1, 1, 1, Policy.LRU⟩ 0 (allocate_cache ⟨1, 1, 1, Policy.LRU⟩))
        (set_ind ⟨1, 1, 1, Policy.LRU⟩ 0).toNat)
        (find_lowind 1 (rowAt (allocate_cache ⟨1, 1, 1, Policy.LRU⟩)
          (set_ind ⟨1, 1, 1, Policy.LRU⟩ 0).toNat))).valid = true ∧
    (lineAt (rowAt (access_data ⟨1, 1, 1, Policy.LRU⟩ 0 (allocate_cache ⟨1, 1, 1, Policy.LRU⟩))
        (set_ind ⟨1, 1, 1, Policy.LRU⟩ 0).toNat)
        (find_lowind 1 (rowAt (allocate_cache ⟨1, 1, 1, Policy.LRU⟩)
          (set_ind ⟨1, 1, 1, Policy.LRU⟩ 0).toNat))).tag = tag_of ⟨1, 1, 1, Policy.LRU⟩ 0 :=
  access_data_miss_eviction ⟨1, 1, 1, Policy.LRU⟩ 0 (allocate_cache ⟨1, 1, 1, Policy.LRU⟩)
    validated_example (by decide) (by decide)

/-! ## Address decoding: set index and tag -/

/-- C5: for `S = 2 ^ ks` and `B = 2 ^ kb` with `ks, kb ≤ 30`, the set index computed by
`access_data` is `(a >> kb) & (S - 1)`, and `INT_LOG2 (2 ^ k) = k` for every `k ≤ 30`. -/
theorem set_ind_formula (cfg : Config) (ks kb a : Nat) (hks : ks ≤ 30) (hkb : kb ≤ 30)
    (hS : cfg.S = 2 ^ ks) (hB : cfg.B = 2 ^ kb) :
    set_ind cfg a = (((a >>> kb) &&& (cfg.S - 1) : Nat) : Int) ∧
    INT_LOG2 cfg.B = kb ∧ INT_LOG2 cfg.S = ks ∧
    ∀ k, k ≤ 30 → INT_LOG2 (2 ^ k) = k := by
  obtain ⟨S, K, B, p⟩ := cfg
  simp only at hS hB
  subst hS hB
  exact ⟨set_ind_eq ks kb K p a hks hkb, INT_LOG2_two_pow kb (by omega),
    INT_LOG2_two_pow ks (by omega), fun k hk => INT_LOG2_two_pow k (by omega)⟩

/-- The witness of C5: `S = 4`, `B = 8`, address `0x2d`: set index `(0x2d >> 3) & 3 = 1`. -/
theorem set_ind_formula_witness :
    set_ind ⟨4, 2, 8, Policy.FIFO⟩ 45 = (((45 >>> 3) &&& (4 - 1) : Nat) : Int) ∧
    INT_LOG2 8 = 3 ∧ INT_LOG2 4 = 2 ∧ ∀ k, k ≤ 30 → INT_LOG2 (2 ^ k) = k :=
  set_ind_formula ⟨4, 2, 8, Policy.FIFO⟩ 2 3 45 (by decide) (by decide) rfl rfl

/-- C6: the tag `t` of `access_data` is an `int`, so it keeps only the low 32 bits of
`a >> (b + s)`.  With `S = B = 1` the addresses `0` and `2 ^ 32` have different values
`a >> (b + s)` (`0` and `2 ^ 32`) but the same tag `0`, and the access to `2 ^ 32` that
follows an access to `0` on the fresh cache is a hit. -/
theorem tag_of_truncates :
    (0 >>> (INT_LOG2 1 + INT_LOG2 1)) ≠ (2 ^ 32 >>> (INT_LOG2 1 + INT_LOG2 1)) ∧
    tag_of ⟨1, 1, 1, Policy.LRU⟩ 0 = 0 ∧
    tag_of ⟨1, 1, 1, Policy.LRU⟩ (2 ^ 32) = 0 ∧
    is_hit ⟨1, 1, 1, Policy.LRU⟩ (2 ^ 32)
      (access_data ⟨1, 1, 1, Policy.LRU⟩ 0 (allocate_cache ⟨1, 1, 1, Policy.LRU⟩)) = true ∧
    (run ⟨1, 1, 1, Policy.LRU⟩ [0, 2 ^ 32] (allocate_cache ⟨1, 1, 1, Policy.LRU⟩)).hit_count = 1 ∧
    (run ⟨1, 1, 1, Policy.LRU⟩ [0, 2 ^ 32] (allocate_cache ⟨1, 1, 1, Policy.LRU⟩)).miss_count = 1 := by
  decide

/-- Below the truncation the tag is the plain shift: when `a >> (b + s)` fits in 31 bits,
`t = a >> (b + s)`. -/
theorem tag_of_small (cfg : Config) (a : Nat)
    (h : a >>> (INT_LOG2 cfg.B + INT_LOG2 cfg.S) < 2 ^ 31) :
    tag_of cfg a = ((a >>> (INT_LOG2 cfg.B + INT_LOG2 cfg.S) : Nat) : Int) := by
  unfold tag_of; exact toInt32_small _ h

/-! ## Trace replay: the calls of one record -/

theorem boundary_loop_eq {σ : Type} (B : Nat) (body : Nat → σ → σ) (n m : Nat) (st : σ) :
    boundary_loop B body n m st = (boundaries B m n).foldl (fun s x => body x s) st := by
  induction n generalizing m st with
  | zero => simp [boundary_loop, boundaries]
  | succ n ih =>
    unfold boundary_loop boundaries
    rw [List.range'_succ, List.filter_cons, ih]
    by_cases h : m % B = 0
    · simp [h, boundaries]
    · simp [h, boundaries]

theorem foldl_log (l init : List Nat) :
    l.foldl (fun s x => s ++ [x]) init = init ++ l := by
  induction l generalizing init with
  | nil => simp
  | cons x xs ih => simp [ih]

theorem foldl_log_twice (l init : List Nat) :
    l.foldl (fun s x => s ++ [x] ++ [x]) init = init ++ double l := by
  induction l generalizing init with
  | nil => simp [double]
  | cons x xs ih =>
    rw [List.foldl_cons, ih]
    simp [double]

theorem foldl_double {σ : Type} (acc : Nat → σ → σ) (l : List Nat) (st : σ) :
    (double l).foldl (fun s m => acc m s) st = l.foldl (fun s m => acc m (acc m s)) st := by
  induction l generalizing st with
  | nil => rfl
  | cons x xs ih => simp [double, ih]

theorem calls_L (cfg : Config) (add bytes : Nat) :
    calls cfg Op.L add bytes =
      add :: boundaries cfg.B ((add + 1) % 2 ^ 64) ((add + bytes) % 2 ^ 64 - (add + 1) % 2 ^ 64) := by
  unfold calls replay_op
  simp only [boundary_loop_eq, foldl_log]
  rfl

theorem calls_S (cfg : Config) (add bytes : Nat) :
    calls cfg Op.S add bytes = calls cfg Op.L add bytes := rfl

theorem calls_M (cfg : Config) (add bytes : Nat) :
    calls cfg Op.M add bytes =
      add :: add ::
        double (boundaries cfg.B ((add + 1) % 2 ^ 64)
          ((add + bytes) % 2 ^ 64 - (add + 1) % 2 ^ 64)) := by
  unfold calls replay_op
  simp only [boundary_loop_eq, foldl_log_twice]
  rfl

/-- Replaying a record with any implementation `acc` of `access_data` performs `acc` on
the addresses of `calls`, in order: `calls` is the call sequence of the record. -/
theorem replay_op_eq_foldl {σ : Type} (cfg : Config) (acc : Nat → σ → σ) (op : Op)
    (add bytes : Nat) (st : σ) :
    replay_op cfg acc op add bytes st =
      (calls cfg op add bytes).foldl (fun s m => acc m s) st := by
  cases op with
  | L => rw [calls_L]; simp [replay_op, boundary_loop_eq]
  | S => rw [calls_S, calls_L]; simp [replay_op, boundary_loop_eq]
  | M =>
    rw [calls_M]
    simp only [replay_op, boundary_loop_eq, List.foldl_cons, foldl_double]

theorem replay_record_eq_run (cfg : Config) (op : Op) (add bytes : Nat) (c : Cache) :
    replay_record cfg op add bytes c = run cfg (calls cfg op add bytes) c := by
  unfold replay_record run
  exact replay_op_eq_foldl cfg (access_data cfg) op add bytes c

theorem mem_boundaries (B start n m : Nat) :
    m ∈ boundaries B start n ↔ start ≤ m ∧ m < start + n ∧ m % B = 0 := by
  unfold boundaries
  simp [List.mem_filter, and_assoc]

theorem boundaries_sorted (B start n : Nat) :
    (boundaries B start n).Pairwise (fun x y => x < y) := by
  unfold boundaries
  exact List.Pairwise.filter _ (List.pairwise_lt_range' start n)

/-- When neither `add + 1` nor `add + bytes` wraps, a Load issues `add` and then exactly
the multiples `m` of `B` with `add < m < add + bytes`, in increasing order, once each. -/
theorem calls_L_no_wrap (cfg : Config) (add bytes : Nat) (h : add + bytes < 2 ^ 64)
    (h1 : add + 1 < 2 ^ 64) :
    ∃ rest, calls cfg Op.L add bytes = add :: rest ∧
      rest.Pairwise (fun x y => x < y) ∧
      ∀ m, m ∈ rest ↔ add < m ∧ m < add + bytes ∧ m % cfg.B = 0 := by
  refine ⟨_, calls_L cfg add bytes, boundaries_sorted _ _ _, fun m => ?_⟩
  rw [mem_boundaries, Nat.mod_eq_of_lt h, Nat.mod_eq_of_lt h1]
  constructor
  · rintro ⟨a, b, c⟩; exact ⟨by omega, by omega, c⟩
  · rintro ⟨a, b, c⟩; exact ⟨by omega, by omega, c⟩

/-- C7: a Load of the last 32 bytes of the address space with `B = 16`
(`add = 2 ^ 64 - 32`, `bytes = 32`) issues the single call `access_data(add)`, and so does
the Store: `add + bytes` wraps to `0` and the boundary loop does not run, although
`m = 2 ^ 64 - 16` satisfies `add < m < add + bytes` and `m mod B = 0`. -/
theorem calls_load_wraps :
    calls ⟨1, 1, 16, Policy.LRU⟩ Op.L (2 ^ 64 - 32) 32 = [2 ^ 64 - 32] ∧
    calls ⟨1, 1, 16, Policy.LRU⟩ Op.S (2 ^ 64 - 32) 32 = [2 ^ 64 - 32] ∧
    (2 ^ 64 - 32 < 2 ^ 64 - 16 ∧ 2 ^ 64 - 16 < 2 ^ 64 - 32 + 32 ∧ (2 ^ 64 - 16) % 16 = 0) ∧
    (2 ^ 64 - 16) ∉ calls ⟨1, 1, 16, Policy.LRU⟩ Op.L (2 ^ 64 - 32) 32 := by
  decide

theorem no_multiple_inside (B q m : Nat) (h1 : B * q < m) (h2 : m < B * q + B) :
    m % B ≠ 0 := by
  intro h
  have hm : B * (m / B) = m := by
    have := Nat.div_add_mod m B
    omega
  have h3 : B * q < B * (m / B) := by omega
  have h4 : B * (m / B) < B * (q + 1) := by rw [Nat.mul_add, Nat.mul_one]; omega
  have h5 := Nat.lt_of_mul_lt_mul_left h3
  have h6 := Nat.lt_of_mul_lt_mul_left h4
  omega

theorem line_end_le (kb X : Nat) (hkb : kb ≤ 64) (hX : X < 2 ^ 64) :
    2 ^ kb * (X / 2 ^ kb) + 2 ^ kb ≤ 2 ^ 64 := by
  have hpow : (2 : Nat) ^ 64 = 2 ^ kb * 2 ^ (64 - kb) := by
    rw [← Nat.pow_add]; congr 1; omega
  have hq : X / 2 ^ kb < 2 ^ (64 - kb) := by
    apply Nat.div_lt_of_lt_mul
    rw [← hpow]; exact hX
  calc 2 ^ kb * (X / 2 ^ kb) + 2 ^ kb = 2 ^ kb * (X / 2 ^ kb + 1) := by ring
    _ ≤ 2 ^ kb * 2 ^ (64 - kb) := Nat.mul_le_mul_left _ hq
    _ = 2 ^ 64 := hpow.symm

/-- A record whose bytes stay inside the line of `X` crosses no boundary: the loop of
`replay_trace` finds no multiple of `B`. -/
theorem boundaries_single_line (B kb X len : Nat) (hB : B = 2 ^ kb) (hkb : kb ≤ 64)
    (hX : X < 2 ^ 64) (hspan : X % B + len ≤ B) (hz : 0 < len ∨ X + 1 < 2 ^ 64) :
    boundaries B ((X + 1) % 2 ^ 64) ((X + len) % 2 ^ 64 - (X + 1) % 2 ^ 64) = [] := by
  have htop := line_end_le kb X hkb hX
  rw [← hB] at htop
  have hdm := Nat.div_add_mod X B
  apply List.eq_nil_iff_forall_not_mem.2
  intro m hm
  rw [mem_boundaries] at hm
  obtain ⟨h1, h2, h3⟩ := hm
  by_cases hwrap : X + len < 2 ^ 64
  · rw [Nat.mod_eq_of_lt hwrap] at h2
    by_cases hone : X + 1 < 2 ^ 64
    · rw [Nat.mod_eq_of_lt hone] at h1 h2
      exact no_multiple_inside B (X / B) m (by omega) (by omega) h3
    · omega
  · have hlim : (X + len) % 2 ^ 64 = 0 := by
      have : X + len = 2 ^ 64 := by omega
      rw [this]; exact Nat.mod_self _
    rw [hlim] at h2
    omega

theorem calls_M_single_line (cfg : Config) (X len : Nat) (hv : Validated cfg)
    (hX : X < 2 ^ 64) (hspan : X % cfg.B + len ≤ cfg.B) (hz : 0 < len ∨ X + 1 < 2 ^ 64) :
    calls cfg Op.M X len = [X, X] := by
  obtain ⟨kb, hkb, hB⟩ := hv.2.1
  rw [calls_M, boundaries_single_line cfg.B kb X len hB (by omega) hX hspan hz]
  rfl

/-- An access to the address just accessed is a hit: the first call leaves a valid line
with the tag of `a` in the set of `a`. -/
theorem is_hit_after_access (cfg : Config) (a : Nat) (c : Cache) (hv : Validated cfg)
    (hw : WellFormed cfg c) : is_hit cfg a (access_data cfg a c) = true := by
  have hsi := set_ind_toNat_lt cfg hv a
  have hlen := rowAt_length cfg c hw _ hsi
  have hK : 0 < cfg.K := hv.2.2.1
  have hsl : (set_ind cfg a).toNat < c.sets.length := by rw [hw.1]; exact hsi
  rw [is_hit_iff]
  cases hs : hit_scan (rowAt c (set_ind cfg a).toNat) (tag_of cfg a) cfg.K 0 with
  | some i =>
    have hi := (hit_scan_some _ _ _ _ _).1 hs
    have hiK : i < cfg.K := by omega
    refine ⟨i, hiK, ?_, ?_⟩
    · rw [access_data_hit cfg a c i hs, rowAt_set, if_pos ⟨rfl, hsl⟩]
      cases hp : cfg.policy with
      | LRU =>
        rw [lineAt_hit_row_lru cfg _ i i hp hlen hiK hiK, if_pos rfl]
        exact hi.2.2.1.2
      | FIFO => rw [hit_row_fifo cfg _ i hp]; exact hi.2.2.1.2
    · rw [access_data_hit cfg a c i hs, rowAt_set, if_pos ⟨rfl, hsl⟩]
      cases hp : cfg.policy with
      | LRU =>
        rw [lineAt_hit_row_lru cfg _ i i hp hlen hiK hiK, if_pos rfl]
        exact hi.2.2.1.1
      | FIFO => rw [hit_row_fifo cfg _ i hp]; exact hi.2.2.1.1
  | none =>
    have hlow := find_lowind_lt cfg.K (rowAt c (set_ind cfg a).toNat) hK
    refine ⟨find_lowind cfg.K (rowAt c (set_ind cfg a).toNat), hlow, ?_, ?_⟩
    · rw [access_data_miss cfg a c hs, rowAt_set, if_pos ⟨rfl, hsl⟩,
        lineAt_miss_row cfg.K _ _ _ hlen hlow, if_pos rfl]
    · rw [access_data_miss cfg a c hs, rowAt_set, if_pos ⟨rfl, hsl⟩,
        lineAt_miss_row cfg.K _ _ _ hlen hlow, if_pos rfl]

/-- C9, as stated, fails: with `B = 4` the Modify record `(3, 4)` has `length ≤ B` but its
bytes `3 .. 6` cross the boundary `4`, and it issues the four calls `3, 3, 4, 4`. -/
theorem modify_unaligned_four_calls :
    (4 : Nat) ≤ (⟨1, 1, 4, Policy.LRU⟩ : Config).B ∧
    calls ⟨1, 1, 4, Policy.LRU⟩ Op.M 3 4 = [3, 3, 4, 4] ∧
    (calls ⟨1, 1, 4, Policy.LRU⟩ Op.M 3 4).length ≠ 2 := by
  decide

/-- C9, amended: on a grid of `S` rows of `K` lines, a Modify record `(X, len)` whose
bytes stay inside the line of `X` (`X mod B + len ≤ B`; the zero-length record at the
last address `2 ^ 64 - 1` is left out) performs exactly the two calls `access_data(X)`,
`access_data(X)`, and the second call is a hit. -/
theorem modify_single_line (cfg : Config) (c : Cache) (X len : Nat) (hv : Validated cfg)
    (hw : WellFormed cfg c) (hX : X < 2 ^ 64) (hspan : X % cfg.B + len ≤ cfg.B)
    (hz : 0 < len ∨ X + 1 < 2 ^ 64) :
    calls cfg Op.M X len = [X, X] ∧
    replay_record cfg Op.M X len c = access_data cfg X (access_data cfg X c) ∧
    is_hit cfg X (access_data cfg X c) = true := by
  have h := calls_M_single_line cfg X len hv hX hspan hz
  refine ⟨h, ?_, is_hit_after_access cfg X c hv hw⟩
  rw [replay_record_eq_run, h]; rfl

/-- The witness of C9 (amended): `B = 4`, Modify `(1, 3)` on the fresh cache. -/
theorem modify_single_line_witness :
    calls ⟨1, 1, 4, Policy.LRU⟩ Op.M 1 3 = [1, 1] ∧
    replay_record ⟨1, 1, 4, Policy.LRU⟩ Op.M 1 3 (allocate_cache ⟨1, 1, 4, Policy.LRU⟩) =
      access_data ⟨1, 1, 4, Policy.LRU⟩ 1
        (access_data ⟨1, 1, 4, Policy.LRU⟩ 1 (allocate_cache ⟨1, 1, 4, Policy.LRU⟩)) ∧
    is_hit ⟨1, 1, 4, Policy.LRU⟩ 1
      (access_data ⟨1, 1, 4, Policy.LRU⟩ 1 (allocate_cache ⟨1, 1, 4, Policy.LRU⟩)) = true :=
  modify_single_line ⟨1, 1, 4, Policy.LRU⟩ (allocate_cache ⟨1, 1, 4, Policy.LRU⟩) 1 3
    ⟨⟨0, by decide, rfl⟩, ⟨2, by decide, rfl⟩, by decide, by decide⟩ (by decide) (by decide)
    (by decide) (Or.inl (by decide))

theorem RowInv.mono {K now : Nat} {row : List cacheline} {st : Nat → Option Nat}
    (h : RowInv K now row st) : RowInv K (now + 1) row st :=
  { h with lt_now := fun j τ hj hs => Nat.lt_succ_of_lt (h.lt_now j τ hj hs) }

/-- A refresh of line `i` recorded at position `now` keeps the row ordered. -/
theorem RowInv.refresh {K now : Nat} {row : List cacheline} {st : Nat → Option Nat}
    (h : RowInv K now row st) (i : Nat) (row2 : List cacheline)
    (hlen : row2.length = K)
    (hnum : ∀ j, j < K → (lineAt row2 j).numops =
      if j = i then (K : Int) else (lineAt row j).numops - 1)
    (hval : ∀ j, j < K → (lineAt row2 j).valid =
      if j = i then true else (lineAt row j).valid) :
    RowInv K (now + 1) row2 (fun j => if j = i then some now else st j) := by
  refine ⟨hlen, ?_, ?_, ?_, ?_, ?_, ?_⟩
  · intro j hj
    rw [hnum j hj]
    by_cases hji : j = i
    · rw [if_pos hji]
    · rw [if_neg hji]; have := h.le_K j hj; omega
  · intro j hj
    rw [hval j hj]
    by_cases hji : j = i
    · simp [hji]
    · simp only [if_neg hji]; exact h.valid_iff j hj
  · intro j τ hj hs
    by_cases hji : j = i
    · simp only [if_pos hji] at hs
      have : now = τ := by simpa using hs
      omega
    · simp only [if_neg hji] at hs
      have := h.lt_now j τ hj hs; omega
  · intro j1 j2 τ1 τ2 h1 h2 hs1 hs2
    rw [hnum j1 h1, hnum j2 h2]
    by_cases e1 : j1 = i
    · simp only [if_pos e1] at hs1 ⊢
      have t1 : now = τ1 := by simpa using hs1
      by_cases e2 : j2 = i
      · simp only [if_pos e2] at hs2 ⊢
        have t2 : now = τ2 := by simpa using hs2
        omega
      · simp only [if_neg e2] at hs2 ⊢
        have := h.lt_now j2 τ2 h2 hs2
        have := h.le_K j2 h2
        omega
    · simp only [if_neg e1] at hs1 ⊢
      by_cases e2 : j2 = i
      · simp only [if_pos e2] at hs2 ⊢
        have t2 : now = τ2 := by simpa using hs2
        have := h.lt_now j1 τ1 h1 hs1
        have := h.le_K j1 h1
        omega
      · simp only [if_neg e2] at hs2 ⊢
        have := h.order j1 j2 τ1 τ2 h1 h2 hs1 hs2
        omega
  · intro j1 j2 τ h1 h2 hs1 hs2
    by_cases e1 : j1 = i
    · by_cases e2 : j2 = i
      · omega
      · simp only [if_pos e1] at hs1
        simp only [if_neg e2] at hs2
        have t1 : now = τ := by simpa using hs1
        have := h.lt_now j2 τ h2 hs2
        omega
    · by_cases e2 : j2 = i
      · simp only [if_neg e1] at hs1
        simp only [if_pos e2] at hs2
        have t2 : now = τ := by simpa using hs2
        have := h.lt_now j1 τ h1 hs1
        omega
      · simp only [if_neg e1] at hs1
        simp only [if_neg e2] at hs2
        exact h.inj j1 j2 τ h1 h2 hs1 hs2
  · intro j1 j2 τ h1 h2 hs1 hs2
    rw [hnum j1 h1, hnum j2 h2]
    by_cases e1 : j1 = i
    · simp [if_pos e1] at hs1
    · simp only [if_neg e1] at hs1 ⊢
      by_cases e2 : j2 = i
      · simp only [if_pos e2]
        have := h.le_K j1 h1
        omega
      · simp only [if_neg e2] at hs2 ⊢
        have := h.invalid_lt j1 j2 τ h1 h2 hs1 hs2
        omega

/-- In an ordered row the victim, when valid, has the earliest recorded position among
the valid lines. -/
theorem RowInv.victim_earliest {K now : Nat} {row : List cacheline} {st : Nat → Option Nat}
    (h : RowInv K now row st) (hK : 0 < K)
    (hvalid : (lineAt row (find_lowind K row)).valid = true) :
    ∃ τ, st (find_lowind K row) = some τ ∧
      ∀ j, j < K → j ≠ find_lowind K row → (lineAt row j).valid = true →
        ∃ τ2, st j = some τ2 ∧ τ < τ2 := by
  have hv := find_lowind_lt K row hK
  obtain ⟨τ, hτ⟩ := (h.valid_iff _ hv).1 hvalid
  refine ⟨τ, hτ, fun j hj hne hjv => ?_⟩
  obtain ⟨τ2, hτ2⟩ := (h.valid_iff j hj).1 hjv
  refine ⟨τ2, hτ2, ?_⟩
  have hle := find_lowind_le K row j hj
  have hord := h.order j _ τ2 τ hj hv hτ2 hτ
  have hne2 : τ2 ≠ τ := fun e => hne (h.inj j _ τ hj hv (e ▸ hτ2) hτ)
  have : ¬ τ2 < τ := fun hlt => by have := hord.1 hlt; omega
  omega

theorem stamp_same (f : Nat → Nat → Option Nat) (s j now : Nat) :
    stamp f s j now s = fun j2 => if j2 = j then some now else f s j2 := by
  funext j2; simp [stamp]

theorem stamp_other (f : Nat → Nat → Option Nat) (s j now s2 : Nat) (h : s2 ≠ s) :
    stamp f s j now s2 = f s2 := by
  funext j2; simp [stamp, h]

theorem wellFormed_set (cfg : Config) (c : Cache) (i : Nat) (r : List cacheline)
    (h m e : Int) (hw : WellFormed cfg c) (hr : r.length = cfg.K) :
    WellFormed cfg
      { sets := c.sets.set i r, hit_count := h, miss_count := m, eviction_count := e } := by
  refine ⟨by simp [hw.1], fun row hrow => ?_⟩
  rcases List.mem_or_eq_of_mem_set hrow with h1 | h1
  · exact hw.2 row h1
  · rw [h1]; exact hr

theorem rowAt_allocate (cfg : Config) (s : Nat) (hs : s < cfg.S) :
    rowAt (allocate_cache cfg) s = List.replicate cfg.K emptyLine := by
  unfold rowAt allocate_cache
  simp [List.getElem?_replicate, hs]

theorem lineAt_replicate (K j : Nat) : lineAt (List.replicate K emptyLine) j = emptyLine := by
  unfold lineAt
  simp only [List.getD_eq_getElem?_getD, List.getElem?_replicate]
  split <;> rfl

theorem wellFormed_allocate (cfg : Config) : WellFormed cfg (allocate_cache cfg) := by
  refine ⟨by simp [allocate_cache], fun row hrow => ?_⟩
  have := List.eq_of_mem_replicate hrow
  rw [this]; simp

theorem ord_init (cfg : Config) (s j : Nat) : (Hist.init cfg).ord cfg s j = none := by
  unfold Hist.ord Hist.init
  cases cfg.policy <;> rfl

theorem HistInv_init (cfg : Config) : HistInv cfg (Hist.init cfg) := by
  refine ⟨wellFormed_allocate cfg, fun s hs => ?_⟩
  have hrow : rowAt (Hist.init cfg).c s = List.replicate cfg.K emptyLine :=
    rowAt_allocate cfg s hs
  rw [hrow]
  refine ⟨by simp, ?_, ?_, ?_, ?_, ?_, ?_⟩
  · intro j _; rw [lineAt_replicate]; simp [emptyLine]
  · intro j _; rw [lineAt_replicate]; simp [emptyLine, ord_init]
  · intro j τ _ h; rw [ord_init] at h; cases h
  · intro j1 j2 τ1 τ2 _ _ h; rw [ord_init] at h; cases h
  · intro j1 j2 τ _ _ h; rw [ord_init] at h; cases h
  · intro j1 j2 τ _ _ _ h; rw [ord_init] at h; cases h

/-- One access keeps the invariant of the run. -/
theorem HistInv_step (cfg : Config) (hv : Validated cfg) (h : Hist) (a : Nat)
    (hinv : HistInv cfg h) : HistInv cfg (h.step cfg a) := by
  obtain ⟨hw, hrows⟩ := hinv
  have hsi := set_ind_toNat_lt cfg hv a
  have hlen := rowAt_length cfg h.c hw _ hsi
  have hK : 0 < cfg.K := hv.2.2.1
  have hsl : (set_ind cfg a).toNat < h.c.sets.length := by rw [hw.1]; exact hsi
  unfold Hist.step target
  cases hs : hit_scan (rowAt h.c (set_ind cfg a).toNat) (tag_of cfg a) cfg.K 0 with
  | some i =>
    have hi := (hit_scan_some _ _ _ _ _).1 hs
    have hiK : i < cfg.K := by omega
    simp only
    rw [access_data_hit cfg a h.c i hs]
    refine ⟨wellFormed_set cfg h.c _ _ _ _ _ hw (by rw [length_hit_row]; exact hlen),
      fun s hsS => ?_⟩
    simp only [rowAt_set]
    cases hp : cfg.policy with
    | LRU =>
      simp only [Hist.ord, hp]
      by_cases e : (set_ind cfg a).toNat = s
      · subst e
        rw [if_pos ⟨rfl, hsl⟩, stamp_same]
        apply RowInv.refresh (by simpa [Hist.ord, hp] using hrows _ hsS) i
        · rw [length_hit_row]; exact hlen
        · intro j hj
          rw [lineAt_hit_row_lru cfg _ i j hp hlen hiK hj]
          split <;> rfl
        · intro j hj
          rw [lineAt_hit_row_lru cfg _ i j hp hlen hiK hj]
          by_cases hji : j = i
          · simp only [if_pos hji]; exact hi.2.2.1.2
          · simp only [if_neg hji]
      · rw [if_neg (fun hh => e hh.1), stamp_other _ _ _ _ _ (Ne.symm e)]
        exact (by simpa [Hist.ord, hp] using hrows s hsS : RowInv _ _ _ (h.touch s)).mono
    | FIFO =>
      simp only [Hist.ord, hp]
      have hrow : (if (set_ind cfg a).toNat = s ∧ (set_ind cfg a).toNat < h.c.sets.length
          then hit_row cfg (rowAt h.c (set_ind cfg a).toNat) i else rowAt h.c s) =
          rowAt h.c s := by
        by_cases e : (set_ind cfg a).toNat = s
        · subst e; rw [if_pos ⟨rfl, hsl⟩, hit_row_fifo cfg _ i hp]
        · rw [if_neg (fun hh => e hh.1)]
      rw [hrow]
      exact (by simpa [Hist.ord, hp] using hrows s hsS : RowInv _ _ _ (h.fill s)).mono
  | none =>
    have hlow := find_lowind_lt cfg.K (rowAt h.c (set_ind cfg a).toNat) hK
    simp only
    rw [access_data_miss cfg a h.c hs]
    refine ⟨wellFormed_set cfg h.c _ _ _ _ _ hw (by rw [length_miss_row]; exact hlen),
      fun s hsS => ?_⟩
    simp only [rowAt_set]
    have hord : (Hist.ord cfg
        { c := { sets := h.c.sets.set (set_ind cfg a).toNat
                   (miss_row cfg.K (rowAt h.c (set_ind cfg a).toNat) (tag_of cfg a)),
                 hit_count := h.c.hit_count, miss_count := h.c.miss_count + 1,
                 eviction_count :=
                   if (lineAt (refresh cfg.K (rowAt h.c (set_ind cfg a).toNat)
                        (find_lowind cfg.K (rowAt h.c (set_ind cfg a).toNat)))
                        (find_lowind cfg.K (rowAt h.c (set_ind cfg a).toNat))).valid = true
                   then h.c.eviction_count + 1 else h.c.eviction_count },
          now := h.now + 1,
          touch := stamp h.touch (set_ind cfg a).toNat (victim cfg a h.c) h.now,
          fill := stamp h.fill (set_ind cfg a).toNat (victim cfg a h.c) h.now }) =
        stamp (h.ord cfg) (set_ind cfg a).toNat (victim cfg a h.c) h.now := by
      unfold Hist.ord; cases cfg.policy <;> rfl
    rw [hord]
    by_cases e : (set_ind cfg a).toNat = s
    · subst e
      rw [if_pos ⟨rfl, hsl⟩, stamp_same]
      apply RowInv.refresh (hrows _ hsS) (victim cfg a h.c)
      · rw [length_miss_row]; exact hlen
      · intro j hj
        rw [lineAt_miss_row cfg.K _ _ j hlen hj]
        unfold victim target
        split <;> rfl
      · intro j hj
        rw [lineAt_miss_row cfg.K _ _ j hlen hj]
        unfold victim target
        split <;> rfl
    · rw [if_neg (fun hh => e hh.1), stamp_other _ _ _ _ _ (Ne.symm e)]
      exact (hrows s hsS).mono

theorem HistInv_foldl (cfg : Config) (hv : Validated cfg) (addrs : List Nat) (h : Hist)
    (hinv : HistInv cfg h) : HistInv cfg (addrs.foldl (Hist.step cfg) h) := by
  induction addrs generalizing h with
  | nil => exact hinv
  | cons a as ih => exact ih _ (HistInv_step cfg hv h a hinv)

theorem HistInv_history (cfg : Config) (hv : Validated cfg) (addrs : List Nat) :
    HistInv cfg (history cfg addrs) :=
  HistInv_foldl cfg hv addrs _ (HistInv_init cfg)

theorem step_c (cfg : Config) (h : Hist) (a : Nat) :
    (h.step cfg a).c = access_data cfg a h.c := by
  unfold Hist.step; split <;> rfl

theorem step_now (cfg : Config) (h : Hist) (a : Nat) :
    (h.step cfg a).now = h.now + 1 := by
  unfold Hist.step; split <;> rfl

theorem foldl_step_c (cfg : Config) (addrs : List Nat) (h : Hist) :
    (addrs.foldl (Hist.step cfg) h).c = run cfg addrs h.c ∧
    (addrs.foldl (Hist.step cfg) h).now = h.now + addrs.length := by
  induction addrs generalizing h with
  | nil => exact ⟨rfl, rfl⟩
  | cons a as ih =>
    rw [List.foldl_cons, run_cons]
    obtain ⟨h1, h2⟩ := ih (h.step cfg a)
    rw [h1, h2, step_c, step_now]
    exact ⟨rfl, by simp only [List.length_cons]; omega⟩

/-- The cache of the history is the cache after the run, and `now` is the number of
accesses made. -/
theorem history_c (cfg : Config) (addrs : List Nat) :
    (history cfg addrs).c = run cfg addrs (allocate_cache cfg) ∧
    (history cfg addrs).now = addrs.length := by
  have := foldl_step_c cfg addrs (Hist.init cfg)
  exact ⟨this.1, by rw [history, this.2]; simp [Hist.init]⟩

/-! ## The displaced line -/

/-- A miss overwrites the victim line only: every other line of the set keeps its tag and
its valid flag, and the victim line becomes valid with the tag of `a` and order `K`. -/
theorem miss_displaces (cfg : Config) (a : Nat) (c : Cache) (hv : Validated cfg)
    (hw : WellFormed cfg c) (hm : is_hit cfg a c = false) :
    (∀ j, j < cfg.K → j ≠ victim cfg a c →
      lineAt (target cfg a (access_data cfg a c)) j =
        { lineAt (target cfg a c) j with numops := (lineAt (target cfg a c) j).numops - 1 }) ∧
    lineAt (target cfg a (access_data cfg a c)) (victim cfg a c) =
      ⟨tag_of cfg a, true, (cfg.K : Int)⟩ := by
  have hsi := set_ind_toNat_lt cfg hv a
  have hlen := rowAt_length cfg c hw _ hsi
  have hK : 0 < cfg.K := hv.2.2.1
  have hlow := find_lowind_lt cfg.K (rowAt c (set_ind cfg a).toNat) hK
  have hsl : (set_ind cfg a).toNat < c.sets.length := by rw [hw.1]; exact hsi
  unfold target victim target
  rw [access_data_miss cfg a c ((is_hit_false_iff cfg a c).1 hm), rowAt_set,
    if_pos ⟨rfl, hsl⟩]
  refine ⟨fun j hj hne => ?_, ?_⟩
  · rw [lineAt_miss_row cfg.K _ _ j hlen hj, if_neg hne]
  · rw [lineAt_miss_row cfg.K _ _ _ hlen hlow, if_pos rfl]

/-- C2: under FIFO, after any sequence `addrs` of `access_data` calls on the freshly
allocated cache of a validated configuration, when the next access `a` misses and its
victim line is valid, the miss overwrites the victim line only, and the victim is the valid
line of that set that was filled earliest: every other valid line of the set was filled
strictly later, whatever hits happened in between.  Scenario `S = 2, K = 2, B = 4`: after
tags A, B and a hit on A (addresses `0, 8, 0`) the miss on C (address `16`) picks line 0,
which holds A, and leaves C and B in the set -/
theorem fifo_evicts_earliest_inserted (cfg : Config) (addrs : List Nat) (a : Nat)
    (hv : Validated cfg) (hp : cfg.policy = Policy.FIFO)
    (hm : is_hit cfg a (history cfg addrs).c = false)
    (hvalid : (lineAt (target cfg a (history cfg addrs).c)
      (victim cfg a (history cfg addrs).c)).valid = true) :
    (history cfg addrs).c = run cfg addrs (allocate_cache cfg) ∧
    (lineAt (target cfg a (access_data cfg a (history cfg addrs).c))
        (victim cfg a (history cfg addrs).c)).tag = tag_of cfg a ∧
    (∀ j, j < cfg.K → j ≠ victim cfg a (history cfg addrs).c →
      (lineAt (target cfg a (access_data cfg a (history cfg addrs).c)) j).tag =
        (lineAt (target cfg a (history cfg addrs).c) j).tag ∧
      (lineAt (target cfg a (access_data cfg a (history cfg addrs).c)) j).valid =
        (lineAt (target cfg a (history cfg addrs).c) j).valid) ∧
    (∃ τ, (history cfg addrs).fill (set_ind cfg a).toNat
          (victim cfg a (history cfg addrs).c) = some τ ∧
      ∀ j, j < cfg.K → j ≠ victim cfg a (history cfg addrs).c →
        (lineAt (target cfg a (history cfg addrs).c) j).valid = true →
        ∃ τ2, (history cfg addrs).fill (set_ind cfg a).toNat j = some τ2 ∧ τ < τ2) ∧
    (victim ⟨2, 2, 4, Policy.FIFO⟩ 16 (history ⟨2, 2, 4, Policy.FIFO⟩ [0, 8, 0]).c = 0 ∧
      is_hit ⟨2, 2, 4, Policy.FIFO⟩ 0 (history ⟨2, 2, 4, Policy.FIFO⟩ [0, 8]).c = true ∧
      (lineAt (target ⟨2, 2, 4, Policy.FIFO⟩ 16 (history ⟨2, 2, 4, Policy.FIFO⟩ [0, 8, 0]).c) 0).tag =
        tag_of ⟨2, 2, 4, Policy.FIFO⟩ 0 ∧
      rowAt (run ⟨2, 2, 4, Policy.FIFO⟩ [0, 8, 0, 16] (allocate_cache ⟨2, 2, 4, Policy.FIFO⟩)) 0 =
        [⟨tag_of ⟨2, 2, 4, Policy.FIFO⟩ 16, true, 2⟩, ⟨tag_of ⟨2, 2, 4, Policy.FIFO⟩ 8, true, 1⟩]) := by
  have hinv := HistInv_history cfg hv addrs
  have hsi := set_ind_toNat_lt cfg hv a
  have hrow := hinv.2 _ hsi
  have hord : (history cfg addrs).ord cfg = (history cfg addrs).fill := by
    unfold Hist.ord; rw [hp]
  rw [hord] at hrow
  obtain ⟨h1, h2⟩ := miss_displaces cfg a (history cfg addrs).c hv hinv.1 hm
  refine ⟨(history_c cfg addrs).1, ?_, fun j hj hne => ?_,
    RowInv.victim_earliest hrow hv.2.2.1 hvalid, by decide⟩
  · rw [h2]
  · rw [h1 j hj hne]; exact ⟨rfl, rfl⟩

/-- The witness of C2: `S = 2, K = 2, B = 4`, accesses `0, 8, 0` (fill A, fill B, hit A), then the
miss on `16`: the victim is line 0, filled at position 0, and line 1 was filled later -/
theorem fifo_evicts_earliest_inserted_witness :
    is_hit ⟨2, 2, 4, Policy.FIFO⟩ 16 (history ⟨2, 2, 4, Policy.FIFO⟩ [0, 8, 0]).c = false ∧
    (lineAt (target ⟨2, 2, 4, Policy.FIFO⟩ 16 (history ⟨2, 2, 4, Policy.FIFO⟩ [0, 8, 0]).c)
      (victim ⟨2, 2, 4, Policy.FIFO⟩ 16 (history ⟨2, 2, 4, Policy.FIFO⟩ [0, 8, 0]).c)).valid = true ∧
    ∃ τ, (history ⟨2, 2, 4, Policy.FIFO⟩ [0, 8, 0]).fill 0 0 = some τ ∧
      ∀ j, j < 2 → j ≠ 0 →
        (lineAt (target ⟨2, 2, 4, Policy.FIFO⟩ 16 (history ⟨2, 2, 4, Policy.FIFO⟩ [0, 8, 0]).c) j).valid = true →
        ∃ τ2, (history ⟨2, 2, 4, Policy.FIFO⟩ [0, 8, 0]).fill 0 j = some τ2 ∧ τ < τ2 :=
  ⟨by decide, by decide,
    (fifo_evicts_earliest_inserted ⟨2, 2, 4, Policy.FIFO⟩ [0, 8, 0] 16
      ⟨⟨1, by decide, rfl⟩, ⟨2, by decide, rfl⟩, by decide, by decide⟩ rfl (by decide)
      (by decide)).2.2.2.1⟩

/-! ## Frame properties of one access -/

theorem set_getD_self {α : Type} (l : List α) (i : Nat) (d : α) : l.set i (l.getD i d) = l := by
  apply List.ext_getElem?
  intro n
  rw [List.getElem?_set]
  by_cases h : i = n
  · subst h
    by_cases h2 : i < l.length
    · simp [h2, List.getElem?_eq_getElem h2]
    · simp [h2, List.getElem?_eq_none (Nat.le_of_not_lt h2)]
  · simp [h]

/-- The grid after one access: the row of the set index is replaced by its `row_step`. -/
theorem access_data_sets (cfg : Config) (a : Nat) (c : Cache) :
    (access_data cfg a c).sets =
      c.sets.set (set_ind cfg a).toNat (row_step cfg a (rowAt c (set_ind cfg a).toNat)) := by
  unfold row_step
  cases hs : hit_scan (rowAt c (set_ind cfg a).toNat) (tag_of cfg a) cfg.K 0 with
  | some i => rw [access_data_hit cfg a c i hs]
  | none => rw [access_data_miss cfg a c hs]

theorem access_data_sets_length (cfg : Config) (a : Nat) (c : Cache) :
    (access_data cfg a c).sets.length = c.sets.length := by
  rw [access_data_sets]; simp

theorem rowAt_access_data (cfg : Config) (a : Nat) (c : Cache) (s : Nat) :
    rowAt (access_data cfg a c) s =
      if (set_ind cfg a).toNat = s ∧ s < c.sets.length
      then row_step cfg a (rowAt c s) else rowAt c s := by
  have h := rowAt_set c (set_ind cfg a).toNat s
    (row_step cfg a (rowAt c (set_ind cfg a).toNat)) 0 0 0
  have h2 : rowAt (access_data cfg a c) s = (access_data cfg a c).sets.getD s [] := rfl
  rw [h2, access_data_sets]
  simp only [rowAt] at h ⊢
  rw [h]
  by_cases e : (set_ind cfg a).toNat = s
  · subst e; rfl
  · rw [if_neg (fun hh => e hh.1), if_neg (fun hh => e hh.1)]

theorem rowAt_of_le (c : Cache) (s : Nat) (h : c.sets.length ≤ s) : rowAt c s = [] := by
  unfold rowAt; simp [List.getElem?_eq_none h]

theorem run_sets_length (cfg : Config) (addrs : List Nat) (c : Cache) :
    (run cfg addrs c).sets.length = c.sets.length := by
  induction addrs generalizing c with
  | nil => rfl
  | cons x xs ih => rw [run_cons, ih, access_data_sets_length]

/-- The row of set `s` after a run depends only on the accesses that map to `s`. -/
theorem run_row_congr (cfg : Config) (s : Nat) (addrs : List Nat) (c1 c2 : Cache)
    (hrow : rowAt c1 s = rowAt c2 s) (hlen : s < c1.sets.length ↔ s < c2.sets.length) :
    rowAt (run cfg addrs c1) s =
      rowAt (run cfg (addrs.filter (fun x => decide ((set_ind cfg x).toNat = s))) c2) s := by
  induction addrs generalizing c1 c2 with
  | nil => exact hrow
  | cons x xs ih =>
    rw [run_cons, List.filter_cons]
    by_cases e : (set_ind cfg x).toNat = s
    · simp only [e, decide_True, if_true, run_cons]
      apply ih
      · rw [rowAt_access_data, rowAt_access_data, hrow]
        by_cases h1 : s < c1.sets.length
        · rw [if_pos ⟨e, h1⟩, if_pos ⟨e, hlen.1 h1⟩]
        · rw [if_neg (fun hh => h1 hh.2), if_neg (fun hh => h1 (hlen.2 hh.2))]
      · rw [access_data_sets_length, access_data_sets_length]; exact hlen
    · simp only [e, decide_False]
      apply ih
      · rw [rowAt_access_data, if_neg (fun hh => e hh.1)]; exact hrow
      · rw [access_data_sets_length]; exact hlen

theorem is_hit_eq_of_target (cfg : Config) (a : Nat) (c1 c2 : Cache)
    (h : target cfg a c1 = target cfg a c2) : is_hit cfg a c1 = is_hit cfg a c2 := by
  unfold is_hit; unfold target at h; rw [h]

/-- C17: `access_data(a)` leaves every row other than `sets[set_ind(a)]` as it was;
consequently, after any run, the row of a set, and with it the hit-or-miss outcome and the
victim of the next access to that set, are the same as after the run of only those accesses
that mapped to that set. -/
theorem other_sets_unchanged (cfg : Config) (a : Nat) (c : Cache) :
    (∀ s, s ≠ (set_ind cfg a).toNat → rowAt (access_data cfg a c) s = rowAt c s) ∧
    (∀ (addrs : List Nat) (s : Nat),
      rowAt (run cfg addrs c) s =
        rowAt (run cfg (addrs.filter (fun x => decide ((set_ind cfg x).toNat = s))) c) s) ∧
    (∀ (addrs : List Nat) (x : Nat),
      target cfg x (run cfg addrs c) =
        target cfg x (run cfg (addrs.filter
          (fun y => decide ((set_ind cfg y).toNat = (set_ind cfg x).toNat))) c) ∧
      is_hit cfg x (run cfg addrs c) =
        is_hit cfg x (run cfg (addrs.filter
          (fun y => decide ((set_ind cfg y).toNat = (set_ind cfg x).toNat))) c) ∧
      (lineAt (target cfg x (run cfg addrs c)) (victim cfg x (run cfg addrs c))).valid =
        (lineAt (target cfg x (run cfg (addrs.filter
            (fun y => decide ((set_ind cfg y).toNat = (set_ind cfg x).toNat))) c))
          (victim cfg x (run cfg (addrs.filter
            (fun y => decide ((set_ind cfg y).toNat = (set_ind cfg x).toNat))) c))).valid) := by
  refine ⟨fun s hs => ?_, fun addrs s => run_row_congr cfg s addrs c c rfl Iff.rfl,
    fun addrs x => ?_⟩
  · rw [rowAt_access_data, if_neg (fun hh => hs hh.1.symm)]
  · have ht : target cfg x (run cfg addrs c) =
        target cfg x (run cfg (addrs.filter
          (fun y => decide ((set_ind cfg y).toNat = (set_ind cfg x).toNat))) c) :=
      run_row_congr cfg _ addrs c c rfl Iff.rfl
    refine ⟨ht, is_hit_eq_of_target cfg x _ _ ht, ?_⟩
    unfold victim; rw [ht]

theorem lineAt_dec_all_frame (K : Nat) (row : List cacheline) (j : Nat) :
    (lineAt (dec_all K row) j).tag = (lineAt row j).tag ∧
    (lineAt (dec_all K row) j).valid = (lineAt row j).valid := by
  induction K with
  | zero => exact ⟨rfl, rfl⟩
  | succ n ih =>
    rw [dec_all_succ, lineAt_set]
    by_cases h : n = j ∧ n < (dec_all n row).length
    · rw [if_pos h]
      obtain ⟨e, _⟩ := h
      subst e
      exact ih
    · rw [if_neg h]; exact ih

theorem lineAt_refresh_frame (K : Nat) (row : List cacheline) (i j : Nat) :
    (lineAt (refresh K row i) j).tag = (lineAt row j).tag ∧
    (lineAt (refresh K row i) j).valid = (lineAt row j).valid := by
  unfold refresh
  rw [lineAt_set_numops]
  by_cases h : i = j ∧ i < (dec_all K row).length
  · rw [if_pos h]
    obtain ⟨e, _⟩ := h
    subst e
    exact lineAt_dec_all_frame K row i
  · rw [if_neg h]; exact lineAt_dec_all_frame K row j

theorem lineAt_hit_row_frame (cfg : Config) (row : List cacheline) (i j : Nat) :
    (lineAt (hit_row cfg row i) j).tag = (lineAt row j).tag ∧
    (lineAt (hit_row cfg row i) j).valid = (lineAt row j).valid := by
  unfold hit_row
  cases cfg.policy with
  | LRU => exact lineAt_refresh_frame cfg.K row i j
  | FIFO => exact ⟨rfl, rfl⟩

/-- C16: when `access_data(a)` hits, under FIFO the whole cache stays as it was except that
`hit_count` grows by 1; under LRU the counters change in the same way, every row other than
the target row stays as it was, and every line of every row keeps its valid flag and its
tag, so the two policies differ only in the `numops` of the target row. -/
theorem hit_frame (S K B : Nat) (a : Nat) (c : Cache)
    (hh : is_hit ⟨S, K, B, Policy.FIFO⟩ a c = true) :
    access_data ⟨S, K, B, Policy.FIFO⟩ a c = { c with hit_count := c.hit_count + 1 } ∧
    (access_data ⟨S, K, B, Policy.LRU⟩ a c).hit_count = c.hit_count + 1 ∧
    (access_data ⟨S, K, B, Policy.LRU⟩ a c).miss_count = c.miss_count ∧
    (access_data ⟨S, K, B, Policy.LRU⟩ a c).eviction_count = c.eviction_count ∧
    (∀ s j,
      (lineAt (rowAt (access_data ⟨S, K, B, Policy.LRU⟩ a c) s) j).valid =
        (lineAt (rowAt c s) j).valid ∧
      (lineAt (rowAt (access_data ⟨S, K, B, Policy.LRU⟩ a c) s) j).tag =
        (lineAt (rowAt c s) j).tag) ∧
    (∀ s, s ≠ (set_ind ⟨S, K, B, Policy.LRU⟩ a).toNat →
      rowAt (access_data ⟨S, K, B, Policy.LRU⟩ a c) s = rowAt c s) := by
  have hl : is_hit ⟨S, K, B, Policy.LRU⟩ a c = true := hh
  obtain ⟨i, hi⟩ := Option.isSome_iff_exists.1 hh
  have hil : hit_scan (rowAt c (set_ind ⟨S, K, B, Policy.LRU⟩ a).toNat)
      (tag_of ⟨S, K, B, Policy.LRU⟩ a) K 0 = some i := hi
  obtain ⟨h1, h2, h3⟩ := access_data_counters_hit ⟨S, K, B, Policy.LRU⟩ a c hl
  refine ⟨?_, h1, h2, h3, fun s j => ?_, fun s hs => ?_⟩
  · rw [access_data_hit ⟨S, K, B, Policy.FIFO⟩ a c i hi, hit_row_fifo _ _ _ rfl]
    unfold rowAt
    rw [set_getD_self]
  · rw [rowAt_access_data]
    by_cases e : (set_ind ⟨S, K, B, Policy.LRU⟩ a).toNat = s ∧ s < c.sets.length
    · rw [if_pos e]
      unfold row_step
      rw [← e.1, hil]
      exact ⟨(lineAt_hit_row_frame _ _ i j).2, (lineAt_hit_row_frame _ _ i j).1⟩
    · rw [if_neg e]; exact ⟨rfl, rfl⟩
  · rw [rowAt_access_data, if_neg (fun hh2 => hs hh2.1.symm)]

/-- The witness of C16: `S = 1, K = 2, B = 1`, the cache after the accesses `0, 1`, and the
hit on `0`. -/
theorem hit_frame_witness :
    access_data ⟨1, 2, 1, Policy.FIFO⟩ 0
        (run ⟨1, 2, 1, Policy.FIFO⟩ [0, 1] (allocate_cache ⟨1, 2, 1, Policy.FIFO⟩)) =
      { run ⟨1, 2, 1, Policy.FIFO⟩ [0, 1] (allocate_cache ⟨1, 2, 1, Policy.FIFO⟩) with
        hit_count := 1 } ∧
    rowAt (access_data ⟨1, 2, 1, Policy.LRU⟩ 0
        (run ⟨1, 2, 1, Policy.FIFO⟩ [0, 1] (allocate_cache ⟨1, 2, 1, Policy.FIFO⟩))) 0 =
      [⟨0, true, 2⟩, ⟨1, true, 1⟩] ∧
    rowAt (run ⟨1, 2, 1, Policy.FIFO⟩ [0, 1] (allocate_cache ⟨1, 2, 1, Policy.FIFO⟩)) 0 =
      [⟨0, true, 1⟩, ⟨1, true, 2⟩] :=
  ⟨(hit_frame 1 2 1 0
      (run ⟨1, 2, 1, Policy.FIFO⟩ [0, 1] (allocate_cache ⟨1, 2, 1, Policy.FIFO⟩))
      (by decide)).1, by decide, by decide⟩

/-! ## The victim of a miss -/

/-- C15: when `access_data(a)` misses, the line it fills is `lowind`, which is below `K`,
has the minimum `numops` of the lines `0 .. K-1` of the target row as they are before the
call, and is the smallest such index: every earlier line has a strictly larger `numops`. -/
theorem victim_is_first_minimum (cfg : Config) (a : Nat) (c : Cache) (hv : Validated cfg)
    (hw : WellFormed cfg c) (hm : is_hit cfg a c = false) :
    victim cfg a c < cfg.K ∧
    (∀ j, j < cfg.K →
      (lineAt (target cfg a c) (victim cfg a c)).numops ≤ (lineAt (target cfg a c) j).numops) ∧
    (∀ j, j < victim cfg a c →
      (lineAt (target cfg a c) (victim cfg a c)).numops < (lineAt (target cfg a c) j).numops) ∧
    (∀ i, i < cfg.K →
      (∀ j, j < cfg.K →
        (lineAt (target cfg a c) i).numops ≤ (lineAt (target cfg a c) j).numops) →
      victim cfg a c ≤ i) ∧
    lineAt (target cfg a (access_data cfg a c)) (victim cfg a c) =
      ⟨tag_of cfg a, true, (cfg.K : Int)⟩ ∧
    (∀ j, j < cfg.K → j ≠ victim cfg a c →
      lineAt (target cfg a (access_data cfg a c)) j =
        { lineAt (target cfg a c) j with numops := (lineAt (target cfg a c) j).numops - 1 }) := by
  obtain ⟨h1, _, h2, h3⟩ := find_lowind_spec cfg.K (target cfg a c)
  obtain ⟨d1, d2⟩ := miss_displaces cfg a c hv hw hm
  refine ⟨h1 hv.2.2.1, h2, h3, fun i hi hmin => ?_, d2, d1⟩
  by_contra hlt
  have hvi : victim cfg a c = find_lowind cfg.K (target cfg a c) := rfl
  rw [hvi] at hlt
  have h4 := h3 i (by omega)
  have h5 := hmin (find_lowind cfg.K (target cfg a c)) (h1 hv.2.2.1)
  omega

/-- The witness of C15: `S = 1, K = 2, B = 1`, after the access `0` the miss on `1` picks
line 1. -/
theorem victim_is_first_minimum_witness :
    victim ⟨1, 2, 1, Policy.LRU⟩ 1
      (access_data ⟨1, 2, 1, Policy.LRU⟩ 0 (allocate_cache ⟨1, 2, 1, Policy.LRU⟩)) < 2 ∧
    victim ⟨1, 2, 1, Policy.LRU⟩ 1
      (access_data ⟨1, 2, 1, Policy.LRU⟩ 0 (allocate_cache ⟨1, 2, 1, Policy.LRU⟩)) = 1 :=
  ⟨(victim_is_first_minimum ⟨1, 2, 1, Policy.LRU⟩ 1
      (access_data ⟨1, 2, 1, Policy.LRU⟩ 0 (allocate_cache ⟨1, 2, 1, Policy.LRU⟩))
      ⟨⟨0, by decide, rfl⟩, ⟨0, by decide, rfl⟩, by decide, by decide⟩ (by decide)
      (by decide)).1, by decide⟩

/-! ## Two addresses in one line -/

theorem same_line_decode (cfg : Config) (a a2 : Nat) (hv : Validated cfg)
    (hline : a / cfg.B = a2 / cfg.B) :
    set_ind cfg a2 = set_ind cfg a ∧ tag_of cfg a2 = tag_of cfg a := by
  obtain ⟨kb, hkb, hB⟩ := hv.2.1
  have hlog : INT_LOG2 cfg.B = kb := by rw [hB]; exact INT_LOG2_two_pow kb (by omega)
  have hsh : a2 >>> INT_LOG2 cfg.B = a >>> INT_LOG2 cfg.B := by
    rw [hlog, Nat.shiftRight_eq_div_pow, Nat.shiftRight_eq_div_pow, ← hB, hline]
  unfold set_ind tag_of
  rw [Nat.shiftRight_add, Nat.shiftRight_add, hsh]
  exact ⟨rfl, rfl⟩

theorem access_data_congr (cfg : Config) (a a2 : Nat) (c : Cache)
    (h1 : set_ind cfg a2 = set_ind cfg a) (h2 : tag_of cfg a2 = tag_of cfg a) :
    access_data cfg a2 c = access_data cfg a c ∧ is_hit cfg a2 c = is_hit cfg a c := by
  unfold access_data is_hit
  rw [h1, h2]
  exact ⟨rfl, rfl⟩

theorem wellFormed_access_data (cfg : Config) (a : Nat) (c : Cache) (hv : Validated cfg)
    (hw : WellFormed cfg c) : WellFormed cfg (access_data cfg a c) := by
  have hsi := set_ind_toNat_lt cfg hv a
  have hlen := rowAt_length cfg c hw _ hsi
  refine ⟨by rw [access_data_sets_length]; exact hw.1, fun row hrow => ?_⟩
  rw [access_data_sets] at hrow
  rcases List.mem_or_eq_of_mem_set hrow with h1 | h1
  · exact hw.2 row h1
  · rw [h1]
    unfold row_step
    split
    · rw [length_hit_row]; exact hlen
    · rw [length_miss_row]; exact hlen

/-- C14: on a grid of `S` rows of `K` lines of a validated configuration, when `a` and `a2`
lie in the same `B`-byte line (`a / B = a2 / B`), the call `access_data(a2)` right after
`access_data(a)` is a hit: it adds 1 to `hit_count` and changes neither `miss_count` nor
`eviction_count`.  With `S = K = B = 1` the accesses `0, 0` on the fresh cache give 1 hit,
1 miss and no eviction under either policy. -/
theorem same_line_second_access_hits (cfg : Config) (a a2 : Nat) (c : Cache)
    (hv : Validated cfg) (hw : WellFormed cfg c) (hline : a / cfg.B = a2 / cfg.B) :
    is_hit cfg a2 (access_data cfg a c) = true ∧
    (access_data cfg a2 (access_data cfg a c)).hit_count =
      (access_data cfg a c).hit_count + 1 ∧
    (access_data cfg a2 (access_data cfg a c)).miss_count = (access_data cfg a c).miss_count ∧
    (access_data cfg a2 (access_data cfg a c)).eviction_count =
      (access_data cfg a c).eviction_count ∧
    (run ⟨1, 1, 1, Policy.LRU⟩ [0, 0] (allocate_cache ⟨1, 1, 1, Policy.LRU⟩)).hit_count = 1 ∧
    (run ⟨1, 1, 1, Policy.LRU⟩ [0, 0] (allocate_cache ⟨1, 1, 1, Policy.LRU⟩)).miss_count = 1 ∧
    (run ⟨1, 1, 1, Policy.LRU⟩ [0, 0] (allocate_cache ⟨1, 1, 1, Policy.LRU⟩)).eviction_count = 0 ∧
    (run ⟨1, 1, 1, Policy.FIFO⟩ [0, 0] (allocate_cache ⟨1, 1, 1, Policy.FIFO⟩)).hit_count = 1 ∧
    (run ⟨1, 1, 1, Policy.FIFO⟩ [0, 0] (allocate_cache ⟨1, 1, 1, Policy.FIFO⟩)).miss_count = 1 ∧
    (run ⟨1, 1, 1, Policy.FIFO⟩ [0, 0] (allocate_cache ⟨1, 1, 1, Policy.FIFO⟩)).eviction_count
      = 0 := by
  obtain ⟨e1, e2⟩ := same_line_decode cfg a a2 hv hline
  have hh : is_hit cfg a2 (access_data cfg a c) = true := by
    rw [(access_data_congr cfg a a2 _ e1 e2).2]
    exact is_hit_after_access cfg a c hv hw
  obtain ⟨h1, h2, h3⟩ := access_data_counters_hit cfg a2 (access_data cfg a c) hh
  exact ⟨hh, h1, h2, h3, by decide⟩

/-- The witness of C14: `S = 2, K = 2, B = 4`, addresses `5` and `7` of the line `4 .. 7`. -/
theorem same_line_second_access_hits_witness :
    is_hit ⟨2, 2, 4, Policy.FIFO⟩ 7
      (access_data ⟨2, 2, 4, Policy.FIFO⟩ 5 (allocate_cache ⟨2, 2, 4, Policy.FIFO⟩)) = true :=
  (same_line_second_access_hits ⟨2, 2, 4, Policy.FIFO⟩ 5 7
    (allocate_cache ⟨2, 2, 4, Policy.FIFO⟩)
    ⟨⟨1, by decide, rfl⟩, ⟨2, by decide, rfl⟩, by decide, by decide⟩ (by decide)
    (by decide)).1

/-! ## Evictions happen only in full sets -/

theorem miss_eviction_count (cfg : Config) (a : Nat) (c : Cache) (hv : Validated cfg)
    (hw : WellFormed cfg c) (hm : is_hit cfg a c = false) :
    (access_data cfg a c).eviction_count =
      if (lineAt (target cfg a c) (victim cfg a c)).valid = true then c.eviction_count + 1
      else c.eviction_count := by
  have hsi := set_ind_toNat_lt cfg hv a
  have hlen := rowAt_length cfg c hw _ hsi
  have hlow := find_lowind_lt cfg.K (rowAt c (set_ind cfg a).toNat) hv.2.2.1
  rw [access_data_miss cfg a c ((is_hit_false_iff cfg a c).1 hm)]
  simp only [valid_refresh_self cfg.K _ _ hlen hlow]
  rfl

theorem lineAt_cons_succ (x : cacheline) (xs : List cacheline) (j : Nat) :
    lineAt (x :: xs) (j + 1) = lineAt xs j := rfl

theorem replay_trace_eq_run (cfg : Config) (recs : List (Op × Nat × Nat)) (c : Cache) :
    replay_trace cfg recs c = run cfg (trace_calls cfg recs) c := by
  induction recs generalizing c with
  | nil => rfl
  | cons r rs ih =>
    have h : replay_trace cfg (r :: rs) c =
        replay_trace cfg rs (replay_record cfg r.1 r.2.1 r.2.2 c) := rfl
    have ht : trace_calls cfg (r :: rs) =
        calls cfg r.1 r.2.1 r.2.2 ++ trace_calls cfg rs := rfl
    rw [h, ih, replay_record_eq_run, ht, run_append]

theorem row_step_hit (cfg : Config) (a : Nat) (row : List cacheline) (i : Nat)
    (h : hit_scan row (tag_of cfg a) cfg.K 0 = some i) :
    row_step cfg a row = hit_row cfg row i := by
  unfold row_step; rw [h]

theorem row_step_miss (cfg : Config) (a : Nat) (row : List cacheline)
    (h : hit_scan row (tag_of cfg a) cfg.K 0 = none) :
    row_step cfg a row = miss_row cfg.K row (tag_of cfg a) := by
  unfold row_step; rw [h]

theorem find_lowind_one (row : List cacheline) : find_lowind 1 row = 0 := by
  rw [find_lowind_succ]; split <;> rfl

theorem is_hit_one (cfg : Config) (a : Nat) (c : Cache) (hK : cfg.K = 1) :
    is_hit cfg a c = true ↔
      (lineAt (target cfg a c) 0).valid = true ∧ (lineAt (target cfg a c) 0).tag = tag_of cfg a := by
  rw [is_hit_iff, hK]
  unfold target
  constructor
  · rintro ⟨i, hi, h1, h2⟩
    have : i = 0 := by omega
    subst this; exact ⟨h1, h2⟩
  · rintro ⟨h1, h2⟩; exact ⟨0, by omega, h1, h2⟩

/-- With `K = 1`, one access keeps a FIFO cache and an LRU cache in agreement. -/
theorem agree_step (S B : Nat) (a : Nat) (c1 c2 : Cache)
    (hv : Validated ⟨S, 1, B, Policy.FIFO⟩)
    (hw1 : WellFormed ⟨S, 1, B, Policy.FIFO⟩ c1) (hw2 : WellFormed ⟨S, 1, B, Policy.LRU⟩ c2)
    (hag : Agree c1 c2) :
    Agree (access_data ⟨S, 1, B, Policy.FIFO⟩ a c1) (access_data ⟨S, 1, B, Policy.LRU⟩ a c2) := by
  have hvL : Validated ⟨S, 1, B, Policy.LRU⟩ := hv
  obtain ⟨g1, g2, g3, g4⟩ := hag
  have hsi : (set_ind ⟨S, 1, B, Policy.FIFO⟩ a).toNat < S := set_ind_toNat_lt _ hv a
  have hsiL : set_ind ⟨S, 1, B, Policy.LRU⟩ a = set_ind ⟨S, 1, B, Policy.FIFO⟩ a := rfl
  have htL : tag_of ⟨S, 1, B, Policy.LRU⟩ a = tag_of ⟨S, 1, B, Policy.FIFO⟩ a := rfl
  have hl1 : (set_ind ⟨S, 1, B, Policy.FIFO⟩ a).toNat < c1.sets.length := by
    rw [hw1.1]; exact hsi
  have hl2 : (set_ind ⟨S, 1, B, Policy.FIFO⟩ a).toNat < c2.sets.length := by
    rw [hw2.1]; exact hsi
  have hlen1 : (target ⟨S, 1, B, Policy.FIFO⟩ a c1).length = 1 := rowAt_length _ c1 hw1 _ hsi
  have hlen2 : (target ⟨S, 1, B, Policy.LRU⟩ a c2).length = 1 := rowAt_length _ c2 hw2 _ hsi
  have hhit : is_hit ⟨S, 1, B, Policy.FIFO⟩ a c1 = is_hit ⟨S, 1, B, Policy.LRU⟩ a c2 := by
    have e1 := is_hit_one ⟨S, 1, B, Policy.FIFO⟩ a c1 rfl
    have e2 := is_hit_one ⟨S, 1, B, Policy.LRU⟩ a c2 rfl
    have e3 : ((lineAt (target ⟨S, 1, B, Policy.FIFO⟩ a c1) 0).valid = true ∧
        (lineAt (target ⟨S, 1, B, Policy.FIFO⟩ a c1) 0).tag = tag_of ⟨S, 1, B, Policy.FIFO⟩ a) ↔
        ((lineAt (target ⟨S, 1, B, Policy.LRU⟩ a c2) 0).valid = true ∧
        (lineAt (target ⟨S, 1, B, Policy.LRU⟩ a c2) 0).tag = tag_of ⟨S, 1, B, Policy.LRU⟩ a) := by
      unfold target
      rw [hsiL, htL, (g4 _ 0).1, (g4 _ 0).2]
    cases h1 : is_hit ⟨S, 1, B, Policy.FIFO⟩ a c1 with
    | true => exact ((e2.2 (e3.1 (e1.1 h1)))).symm
    | false =>
      cases h2 : is_hit ⟨S, 1, B, Policy.LRU⟩ a c2 with
      | false => rfl
      | true => rw [e1.2 (e3.2 (e2.1 h2))] at h1; cases h1
  cases h1 : is_hit ⟨S, 1, B, Policy.FIFO⟩ a c1 with
  | true =>
    have h2 : is_hit ⟨S, 1, B, Policy.LRU⟩ a c2 = true := by rw [← hhit]; exact h1
    obtain ⟨a1, a2, a3⟩ := access_data_counters_hit _ a c1 h1
    obtain ⟨b1, b2, b3⟩ := access_data_counters_hit _ a c2 h2
    obtain ⟨i1, hi1⟩ := Option.isSome_iff_exists.1 h1
    obtain ⟨i2, hi2⟩ := Option.isSome_iff_exists.1 h2
    refine ⟨by rw [a1, b1, g1], by rw [a2, b2, g2], by rw [a3, b3, g3], fun s j => ?_⟩
    rw [rowAt_access_data, rowAt_access_data]
    by_cases e : (set_ind ⟨S, 1, B, Policy.FIFO⟩ a).toNat = s
    · have eL : (set_ind ⟨S, 1, B, Policy.LRU⟩ a).toNat = s := e
      rw [if_pos ⟨e, by rw [← e]; exact hl1⟩, if_pos ⟨eL, by rw [← e]; exact hl2⟩]
      rw [e] at hi1
      rw [eL] at hi2
      rw [row_step_hit _ a _ i1 hi1, row_step_hit _ a _ i2 hi2,
        (lineAt_hit_row_frame _ _ i1 j).1, (lineAt_hit_row_frame _ _ i1 j).2,
        (lineAt_hit_row_frame _ _ i2 j).1, (lineAt_hit_row_frame _ _ i2 j).2]
      exact g4 _ j
    · have eL : ¬ (set_ind ⟨S, 1, B, Policy.LRU⟩ a).toNat = s := e
      rw [if_neg (fun hh => e hh.1), if_neg (fun hh => eL hh.1)]
      exact g4 s j
  | false =>
    have h2 : is_hit ⟨S, 1, B, Policy.LRU⟩ a c2 = false := by rw [← hhit]; exact h1
    obtain ⟨a1, a2⟩ := access_data_counters_miss _ a c1 h1
    obtain ⟨b1, b2⟩ := access_data_counters_miss _ a c2 h2
    have a3 := miss_eviction_count _ a c1 hv hw1 h1
    have b3 := miss_eviction_count _ a c2 hvL hw2 h2
    have hn1 := (is_hit_false_iff _ a c1).1 h1
    have hn2 := (is_hit_false_iff _ a c2).1 h2
    refine ⟨by rw [a1, b1, g1], by rw [a2, b2, g2], ?_, fun s j => ?_⟩
    · rw [a3, b3, g3]
      unfold victim
      simp only [find_lowind_one]
      unfold target
      rw [hsiL, (g4 _ 0).1]
    · rw [rowAt_access_data, rowAt_access_data]
      by_cases e : (set_ind ⟨S, 1, B, Policy.FIFO⟩ a).toNat = s
      · have eL : (set_ind ⟨S, 1, B, Policy.LRU⟩ a).toNat = s := e
        rw [if_pos ⟨e, by rw [← e]; exact hl1⟩, if_pos ⟨eL, by rw [← e]; exact hl2⟩]
        unfold target at hlen1 hlen2
        rw [e] at hn1 hlen1
        rw [eL] at hn2 hlen2
        rw [row_step_miss _ a _ hn1, row_step_miss _ a _ hn2]
        by_cases hj : j < 1
        · have m1 := lineAt_miss_row 1 (rowAt c1 s) (tag_of ⟨S, 1, B, Policy.FIFO⟩ a) j hlen1 hj
          have m2 := lineAt_miss_row 1 (rowAt c2 s) (tag_of ⟨S, 1, B, Policy.LRU⟩ a) j hlen2 hj
          have hj0 : j = 0 := by omega
          subst hj0
          simp only [find_lowind_one, if_true] at m1 m2
          dsimp only
          rw [m1, m2]
          exact ⟨rfl, rfl⟩
        · dsimp only
          rw [lineAt_of_le _ j (by rw [length_miss_row]; omega),
            lineAt_of_le _ j (by rw [length_miss_row]; omega)]
          exact ⟨rfl, rfl⟩
      · have eL : ¬ (set_ind ⟨S, 1, B, Policy.LRU⟩ a).toNat = s := e
        rw [if_neg (fun hh => e hh.1), if_neg (fun hh => eL hh.1)]
        exact g4 s j

theorem agree_run (S B : Nat) (addrs : List Nat) (c1 c2 : Cache)
    (hv : Validated ⟨S, 1, B, Policy.FIFO⟩)
    (hw1 : WellFormed ⟨S, 1, B, Policy.FIFO⟩ c1) (hw2 : WellFormed ⟨S, 1, B, Policy.LRU⟩ c2)
    (hag : Agree c1 c2) :
    Agree (run ⟨S, 1, B, Policy.FIFO⟩ addrs c1) (run ⟨S, 1, B, Policy.LRU⟩ addrs c2) := by
  induction addrs generalizing c1 c2 with
  | nil => exact hag
  | cons x xs ih =>
    rw [run_cons, run_cons]
    exact ih _ _ (wellFormed_access_data _ x c1 hv hw1)
      (wellFormed_access_data ⟨S, 1, B, Policy.LRU⟩ x c2 hv hw2)
      (agree_step S B x c1 c2 hv hw1 hw2 hag)

theorem trace_calls_policy (S K B : Nat) (recs : List (Op × Nat × Nat)) :
    trace_calls ⟨S, K, B, Policy.FIFO⟩ recs = trace_calls ⟨S, K, B, Policy.LRU⟩ recs := by
  induction recs with
  | nil => rfl
  | cons r rs ih => unfold trace_calls; rw [ih]; rfl

/-- C11: with `K = 1`, for `S` and `B` powers of two, replaying any trace of Load, Store
and Modify records from the freshly allocated cache gives the same `hit_count`,
`miss_count` and `eviction_count` under FIFO and under LRU; the two policies issue the same
sequence of `access_data` calls, and after any sequence of calls the valid flag and the tag
of every line are the same under both. -/
theorem direct_mapped_policies_agree (S B : Nat) (recs : List (Op × Nat × Nat))
    (hv : Validated ⟨S, 1, B, Policy.FIFO⟩) :
    (replay_trace ⟨S, 1, B, Policy.FIFO⟩ recs (allocate_cache ⟨S, 1, B, Policy.FIFO⟩)).hit_count =
      (replay_trace ⟨S, 1, B, Policy.LRU⟩ recs (allocate_cache ⟨S, 1, B, Policy.LRU⟩)).hit_count ∧
    (replay_trace ⟨S, 1, B, Policy.FIFO⟩ recs (allocate_cache ⟨S, 1, B, Policy.FIFO⟩)).miss_count =
      (replay_trace ⟨S, 1, B, Policy.LRU⟩ recs (allocate_cache ⟨S, 1, B, Policy.LRU⟩)).miss_count ∧
    (replay_trace ⟨S, 1, B, Policy.FIFO⟩ recs
        (allocate_cache ⟨S, 1, B, Policy.FIFO⟩)).eviction_count =
      (replay_trace ⟨S, 1, B, Policy.LRU⟩ recs
        (allocate_cache ⟨S, 1, B, Policy.LRU⟩)).eviction_count ∧
    trace_calls ⟨S, 1, B, Policy.FIFO⟩ recs = trace_calls ⟨S, 1, B, Policy.LRU⟩ recs ∧
    (∀ p, replay_trace ⟨S, 1, B, p⟩ recs (allocate_cache ⟨S, 1, B, p⟩) =
      run ⟨S, 1, B, p⟩ (trace_calls ⟨S, 1, B, p⟩ recs) (allocate_cache ⟨S, 1, B, p⟩)) ∧
    (∀ (addrs : List Nat) (s j : Nat),
      (lineAt (rowAt (run ⟨S, 1, B, Policy.FIFO⟩ addrs
          (allocate_cache ⟨S, 1, B, Policy.FIFO⟩)) s) j).valid =
        (lineAt (rowAt (run ⟨S, 1, B, Policy.LRU⟩ addrs
          (allocate_cache ⟨S, 1, B, Policy.LRU⟩)) s) j).valid ∧
      (lineAt (rowAt (run ⟨S, 1, B, Policy.FIFO⟩ addrs
          (allocate_cache ⟨S, 1, B, Policy.FIFO⟩)) s) j).tag =
        (lineAt (rowAt (run ⟨S, 1, B, Policy.LRU⟩ addrs
          (allocate_cache ⟨S, 1, B, Policy.LRU⟩)) s) j).tag) := by
  have h0 : Agree (allocate_cache ⟨S, 1, B, Policy.FIFO⟩) (allocate_cache ⟨S, 1, B, Policy.LRU⟩) :=
    ⟨rfl, rfl, rfl, fun _ _ => ⟨rfl, rfl⟩⟩
  have hrun := fun addrs => agree_run S B addrs _ _ hv (wellFormed_allocate _)
    (wellFormed_allocate ⟨S, 1, B, Policy.LRU⟩) h0
  have ht := hrun (trace_calls ⟨S, 1, B, Policy.FIFO⟩ recs)
  rw [replay_trace_eq_run, replay_trace_eq_run, ← trace_calls_policy]
  exact ⟨ht.1, ht.2.1, ht.2.2.1, rfl, fun p => replay_trace_eq_run _ recs _,
    fun addrs s j => (hrun addrs).2.2.2 s j⟩

/-- The witness of C11: `S = 2, B = 4`, the trace `L 0,1`, `M 8,1`, `S 0,1`. -/
theorem direct_mapped_policies_agree_witness :
    (replay_trace ⟨2, 1, 4, Policy.FIFO⟩ [(Op.L, 0, 1), (Op.M, 8, 1), (Op.S, 0, 1)]
        (allocate_cache ⟨2, 1, 4, Policy.FIFO⟩)).hit_count =
      (replay_trace ⟨2, 1, 4, Policy.LRU⟩ [(Op.L, 0, 1), (Op.M, 8, 1), (Op.S, 0, 1)]
        (allocate_cache ⟨2, 1, 4, Policy.LRU⟩)).hit_count ∧
    (replay_trace ⟨2, 1, 4, Policy.FIFO⟩ [(Op.L, 0, 1), (Op.M, 8, 1), (Op.S, 0, 1)]
        (allocate_cache ⟨2, 1, 4, Policy.FIFO⟩)).eviction_count = 2 :=
  ⟨(direct_mapped_policies_agree 2 4 [(Op.L, 0, 1), (Op.M, 8, 1), (Op.S, 0, 1)]
      ⟨⟨1, by decide, rfl⟩, ⟨2, by decide, rfl⟩, by decide, by decide⟩).1, by decide⟩

/-- With `K = 1`, two addresses of the same set whose tags, as `access_data` decodes them,
differ: the second access right after the first misses, counts an eviction and leaves the
line of the set with the second tag. -/
theorem direct_mapped_conflict (cfg : Config) (a1 a2 : Nat) (c : Cache) (hv : Validated cfg)
    (hw : WellFormed cfg c) (hK : cfg.K = 1) (hset : set_ind cfg a2 = set_ind cfg a1)
    (htag : tag_of cfg a2 ≠ tag_of cfg a1) :
    is_hit cfg a2 (access_data cfg a1 c) = false ∧
    (access_data cfg a2 (access_data cfg a1 c)).miss_count =
      (access_data cfg a1 c).miss_count + 1 ∧
    (access_data cfg a2 (access_data cfg a1 c)).eviction_count =
      (access_data cfg a1 c).eviction_count + 1 ∧
    lineAt (target cfg a2 (access_data cfg a2 (access_data cfg a1 c))) 0 =
      ⟨tag_of cfg a2, true, 1⟩ := by
  have hw1 := wellFormed_access_data cfg a1 c hv hw
  have h1 := (is_hit_one cfg a1 _ hK).1 (is_hit_after_access cfg a1 c hv hw)
  have ht : target cfg a2 (access_data cfg a1 c) = target cfg a1 (access_data cfg a1 c) := by
    unfold target; rw [hset]
  have hm : is_hit cfg a2 (access_data cfg a1 c) = false := by
    cases hh : is_hit cfg a2 (access_data cfg a1 c) with
    | false => rfl
    | true =>
      have h2 := (is_hit_one cfg a2 _ hK).1 hh
      rw [ht] at h2
      exact absurd (h2.2.symm.trans h1.2) htag
  have hvic : victim cfg a2 (access_data cfg a1 c) = 0 := by
    unfold victim; rw [hK]; exact find_lowind_one _
  have hev := miss_eviction_count cfg a2 _ hv hw1 hm
  rw [hvic, ht, h1.1, if_pos rfl] at hev
  have hd := (miss_displaces cfg a2 _ hv hw1 hm).2
  rw [hvic, hK] at hd
  exact ⟨hm, (access_data_counters_miss cfg a2 _ hm).2, hev, hd⟩

/-- C13: with `S = K = B = 1` the addresses `0` and `2 ^ 32` decode, by `a >> (b + s)`, to
the same set and to the different tags `0` and `2 ^ 32`, but `access_data(2 ^ 32)` right
after `access_data(0)` on the fresh cache is a hit and counts no eviction, because the tag
is kept as an `int`.  For the accesses `0, 1, 0` the code gives 0 hits, 3 misses,
2 evictions. -/
theorem direct_mapped_conflict_aliases :
    ((0 >>> INT_LOG2 1) &&& ((1 <<< INT_LOG2 1) - 1)) =
      ((2 ^ 32 >>> INT_LOG2 1) &&& ((1 <<< INT_LOG2 1) - 1)) ∧
    (0 >>> (INT_LOG2 1 + INT_LOG2 1)) ≠ (2 ^ 32 >>> (INT_LOG2 1 + INT_LOG2 1)) ∧
    (∀ p, is_hit ⟨1, 1, 1, p⟩ (2 ^ 32) (access_data ⟨1, 1, 1, p⟩ 0 (allocate_cache ⟨1, 1, 1, p⟩))
      = true) ∧
    (∀ p, (access_data ⟨1, 1, 1, p⟩ (2 ^ 32)
        (access_data ⟨1, 1, 1, p⟩ 0 (allocate_cache ⟨1, 1, 1, p⟩))).eviction_count =
      (access_data ⟨1, 1, 1, p⟩ 0 (allocate_cache ⟨1, 1, 1, p⟩)).eviction_count) ∧
    (∀ p, (run ⟨1, 1, 1, p⟩ [0, 1, 0] (allocate_cache ⟨1, 1, 1, p⟩)).hit_count = 0 ∧
      (run ⟨1, 1, 1, p⟩ [0, 1, 0] (allocate_cache ⟨1, 1, 1, p⟩)).miss_count = 3 ∧
      (run ⟨1, 1, 1, p⟩ [0, 1, 0] (allocate_cache ⟨1, 1, 1, p⟩)).eviction_count = 2) := by
  refine ⟨by decide, by decide, fun p => ?_, fun p => ?_, fun p => ?_⟩ <;>
    cases p <;> decide

/-! ## Every index is in bounds -/

theorem read_line_eq (row : List cacheline) (j : Nat) (h : j < row.length) :
    read_line row j = some (lineAt row j) := by
  unfold read_line lineAt
  simp [List.getElem?_eq_getElem h]

theorem write_line_eq (row : List cacheline) (j : Nat) (x : cacheline) (h : j < row.length) :
    write_line row j x = some (row.set j x) := by
  unfold write_line; rw [if_pos h]

theorem hit_scan_checked_eq (row : List cacheline) (t : Int) (fuel i : Nat)
    (h : i + fuel ≤ row.length) :
    hit_scan_checked row t fuel i = some (hit_scan row t fuel i) := by
  induction fuel generalizing i with
  | zero => rfl
  | succ n ih =>
    unfold hit_scan_checked hit_scan
    rw [read_line_eq row i (by omega)]
    simp only
    split
    · rfl
    · exact ih (i + 1) (by omega)

theorem dec_all_checked_eq (K : Nat) (row : List cacheline) (h : K ≤ row.length) :
    dec_all_checked K row = some (dec_all K row) := by
  induction K with
  | zero => rfl
  | succ n ih =>
    have hstep : dec_all_checked (n + 1) row =
        (dec_all_checked n row).bind (fun r =>
          (read_line r n).bind (fun l => write_line r n { l with numops := l.numops - 1 })) :=
      rfl
    have hlen : n < (dec_all n row).length := by rw [length_dec_all]; omega
    rw [hstep, ih (by omega), Option.some_bind, read_line_eq _ _ hlen, Option.some_bind,
      write_line_eq _ _ _ hlen, dec_all_succ]

theorem find_lowind_le_self (K : Nat) (row : List cacheline) : find_lowind K row ≤ K := by
  obtain ⟨h1, h0, _, _⟩ := find_lowind_spec K row
  by_cases hK : K = 0
  · rw [h0 hK]; omega
  · have := h1 (by omega); omega

theorem find_lowind_checked_eq (K : Nat) (row : List cacheline) (h : K ≤ row.length) :
    find_lowind_checked K row = some (find_lowind K row) := by
  induction K with
  | zero => rfl
  | succ n ih =>
    have hstep : find_lowind_checked (n + 1) row =
        (find_lowind_checked n row).bind (fun low =>
          (read_line row n).bind (fun lk =>
            (read_line row low).bind (fun ll =>
              some (if lk.numops < ll.numops then n else low)))) := rfl
    have hlow := find_lowind_le_self n row
    rw [hstep, ih (by omega), Option.some_bind, read_line_eq _ _ (by omega), Option.some_bind,
      read_line_eq _ _ (by omega), Option.some_bind, find_lowind_succ]

theorem set_numops_checked_eq (row : List cacheline) (i K : Nat) (h : i < row.length) :
    set_numops_checked row i K = some (set_numops row i K) := by
  unfold set_numops_checked set_numops
  rw [read_line_eq _ _ h, Option.some_bind, write_line_eq _ _ _ h]

theorem set_ind_nonneg (cfg : Config) (hv : Validated cfg) (a : Nat) : 0 ≤ set_ind cfg a := by
  obtain ⟨⟨ks, hks, hS⟩, ⟨kb, hkb, hB⟩, _, _⟩ := hv
  obtain ⟨S, K, B, p⟩ := cfg
  simp only at hS hB
  subst hS hB
  rw [set_ind_eq ks kb K p a hks hkb]
  exact Int.ofNat_nonneg _

/-- On a grid of `S` rows of `K` lines the checked `access_data` never fails and computes
what `access_data` computes. -/
theorem access_data_checked_eq (cfg : Config) (a : Nat) (c : Cache) (hv : Validated cfg)
    (hw : WellFormed cfg c) :
    access_data_checked cfg a c = some (access_data cfg a c) := by
  have hsi := set_ind_toNat_lt cfg hv a
  have hlen := rowAt_length cfg c hw _ hsi
  have hsl : (set_ind cfg a).toNat < c.sets.length := by rw [hw.1]; exact hsi
  have hrow : c.sets[(set_ind cfg a).toNat]? = some (rowAt c (set_ind cfg a).toNat) := by
    unfold rowAt
    simp [List.getElem?_eq_getElem hsl]
  have hK : 0 < cfg.K := hv.2.2.1
  unfold access_data_checked
  rw [if_neg (by have := set_ind_nonneg cfg hv a; omega)]
  simp only [hrow]
  rw [hit_scan_checked_eq _ _ _ _ (by omega)]
  cases hs : hit_scan (rowAt c (set_ind cfg a).toNat) (tag_of cfg a) cfg.K 0 with
  | some i =>
    have hi := (hit_scan_some _ _ _ _ _).1 hs
    simp only
    rw [access_data_hit cfg a c i hs]
    unfold hit_row refresh
    cases cfg.policy with
    | FIFO => rfl
    | LRU =>
      simp only
      rw [dec_all_checked_eq _ _ (by omega), Option.some_bind,
        set_numops_checked_eq _ _ _ (by rw [length_dec_all]; omega), Option.some_bind]
  | none =>
    have hlow := find_lowind_lt cfg.K (rowAt c (set_ind cfg a).toNat) hK
    simp only
    rw [access_data_miss cfg a c hs]
    unfold miss_row refresh
    have l1 : find_lowind cfg.K (rowAt c (set_ind cfg a).toNat) <
        (dec_all cfg.K (rowAt c (set_ind cfg a).toNat)).length := by
      rw [length_dec_all]; omega
    have l2 : find_lowind cfg.K (rowAt c (set_ind cfg a).toNat) <
        (set_numops (dec_all cfg.K (rowAt c (set_ind cfg a).toNat))
          (find_lowind cfg.K (rowAt c (set_ind cfg a).toNat)) cfg.K).length := by
      rw [length_set_numops]; exact l1
    rw [find_lowind_checked_eq _ _ (by omega), Option.some_bind,
      dec_all_checked_eq _ _ (by omega), Option.some_bind,
      set_numops_checked_eq _ _ _ l1, Option.some_bind,
      read_line_eq _ _ l2, Option.some_bind,
      write_line_eq _ _ _ l2, Option.some_bind,
      read_line_eq _ _ (by rw [List.length_set]; exact l2), Option.some_bind,
      write_line_eq _ _ _ (by rw [List.length_set]; exact l2), Option.some_bind]

theorem run_checked_eq (cfg : Config) (addrs : List Nat) (c : Cache) (hv : Validated cfg)
    (hw : WellFormed cfg c) : run_checked cfg addrs c = some (run cfg addrs c) := by
  induction addrs generalizing c with
  | nil => rfl
  | cons x xs ih =>
    unfold run_checked
    rw [access_data_checked_eq cfg x c hv hw, Option.some_bind, run_cons,
      ih _ (wellFormed_access_data cfg x c hv hw)]

/-- C20: for a validated configuration and the grid of `S` rows of `K` lines, every index
used by `access_data(a)` is in bounds: `set_ind` lies in `0 .. S-1`, the hit loop returns
an index below `K`, `lowind` is below `K`, and the version of `access_data` that checks
every read and write returns the result of `access_data` and never fails; the result is
again a grid of `S` rows of `K` lines, so no call of a run from `allocate_cache` fails. -/
theorem access_data_in_bounds (cfg : Config) (a : Nat) (c : Cache) (hv : Validated cfg)
    (hw : WellFormed cfg c) :
    0 ≤ set_ind cfg a ∧ (set_ind cfg a).toNat < cfg.S ∧
    (∀ i, hit_scan (target cfg a c) (tag_of cfg a) cfg.K 0 = some i → i < cfg.K) ∧
    victim cfg a c < cfg.K ∧
    access_data_checked cfg a c = some (access_data cfg a c) ∧
    WellFormed cfg (access_data cfg a c) ∧
    WellFormed cfg (allocate_cache cfg) ∧
    (∀ addrs : List Nat,
      run_checked cfg addrs (allocate_cache cfg) = some (run cfg addrs (allocate_cache cfg))) := by
  refine ⟨set_ind_nonneg cfg hv a, set_ind_toNat_lt cfg hv a, fun i hi => ?_,
    find_lowind_lt _ _ hv.2.2.1, access_data_checked_eq cfg a c hv hw,
    wellFormed_access_data cfg a c hv hw, wellFormed_allocate cfg,
    fun addrs => run_checked_eq cfg addrs _ hv (wellFormed_allocate cfg)⟩
  have := (hit_scan_some _ _ _ _ _).1 hi
  omega

/-- The witness of C20: `S = 2, K = 2, B = 4`, the checked access to `13` on the fresh
cache succeeds; on a grid without rows, or with a row of one line where `K = 2`, the
checked access fails. -/
theorem access_data_in_bounds_witness :
    access_data_checked ⟨2, 2, 4, Policy.LRU⟩ 13 (allocate_cache ⟨2, 2, 4, Policy.LRU⟩) =
      some (access_data ⟨2, 2, 4, Policy.LRU⟩ 13 (allocate_cache ⟨2, 2, 4, Policy.LRU⟩)) ∧
    (set_ind ⟨2, 2, 4, Policy.LRU⟩ 13).toNat = 1 ∧
    access_data_checked ⟨1, 1, 1, Policy.LRU⟩ 0 ⟨[], 0, 0, 0⟩ = none ∧
    access_data_checked ⟨1, 2, 1, Policy.LRU⟩ 0 ⟨[[emptyLine]], 0, 0, 0⟩ = none :=
  ⟨(access_data_in_bounds ⟨2, 2, 4, Policy.LRU⟩ 13 (allocate_cache ⟨2, 2, 4, Policy.LRU⟩)
      ⟨⟨1, by decide, rfl⟩, ⟨2, by decide, rfl⟩, by decide, by decide⟩
      (by decide)).2.2.2.2.1, by decide, by decide, by decide⟩

/-! ## The cyclic pattern of `K + 1` tags under LRU -/

theorem find_lowind_eq (K : Nat) (row : List cacheline) (v : Nat) (hv : v < K)
    (hmin : ∀ j, j < K → (lineAt row v).numops ≤ (lineAt row j).numops)
    (hfirst : ∀ j, j < v → (lineAt row v).numops < (lineAt row j).numops) :
    find_lowind K row = v := by
  obtain ⟨h1, _, h2, h3⟩ := find_lowind_spec K row
  have hw := h1 (by omega)
  have e1 := h2 v hv
  have e2 := hmin _ hw
  by_contra hne
  rcases Nat.lt_or_gt_of_ne hne with hlt | hgt
  · have := hfirst _ hlt; omega
  · have := h3 v hgt; omega

theorem mod_succ_of_ne (K n j : Nat) (hj : j < K) (hjn : j ≤ n) (hne : j ≠ n % K) :
    j < n ∧ (n - j) % K = (n - 1 - j) % K + 1 := by
  have hK : 0 < K := by omega
  have hlt : j < n := by
    by_contra h
    have : j = n := by omega
    subst this
    exact hne (Nat.mod_eq_of_lt hj).symm
  refine ⟨hlt, ?_⟩
  have hd := Nat.div_add_mod (n - 1 - j) K
  have hr : (n - 1 - j) % K < K := Nat.mod_lt _ hK
  have hnj : n - j = K * ((n - 1 - j) / K) + ((n - 1 - j) % K + 1) := by omega
  by_cases hfull : (n - 1 - j) % K + 1 = K
  · exfalso
    apply hne
    have hn : n = j + K * ((n - 1 - j) / K + 1) := by
      rw [Nat.mul_add, Nat.mul_one]; omega
    rw [hn, Nat.add_mul_mod_self_left, Nat.mod_eq_of_lt hj]
  · rw [hnj, Nat.mul_add_mod, Nat.mod_eq_of_lt (by omega)]

theorem sub_mod_self (K n : Nat) : (n - n % K) % K = 0 := by
  have hd := Nat.div_add_mod n K
  have : n - n % K = K * (n / K) := by omega
  rw [this, Nat.mul_mod_right]

theorem age_of_victim (K n : Nat) (hK : 0 < K) (hn : K ≤ n) :
    (n - 1 - n % K) % K = K - 1 := by
  have hd := Nat.div_add_mod n K
  have hq : 0 < n / K := Nat.div_pos hn hK
  have hr : n % K < K := Nat.mod_lt _ hK
  have hq2 : K * (n / K) = K * (n / K - 1) + K := by
    have : n / K = (n / K - 1) + 1 := by omega
    rw [this, Nat.mul_add, Nat.mul_one]; simp
  have : n - 1 - n % K = K * (n / K - 1) + (K - 1) := by omega
  rw [this, Nat.mul_add_mod, Nat.mod_eq_of_lt (by omega)]

theorem victim_of_age (K n j : Nat) (hj : j < K) (hjn : j < n)
    (h : (n - 1 - j) % K = K - 1) : j = n % K := by
  have hd := Nat.div_add_mod (n - 1 - j) K
  have hn : n = j + K * ((n - 1 - j) / K + 1) := by
    rw [Nat.mul_add, Nat.mul_one]; omega
  rw [hn, Nat.add_mul_mod_self_left, Nat.mod_eq_of_lt hj]

theorem mod_ne_of_gap (M m d n : Nat) (h1 : 1 ≤ d) (h2 : d < M) (h : m + d = n) :
    m % M ≠ n % M := by
  intro e
  have e2 : (m + d) % M = (m + 0) % M := by rw [h, Nat.add_zero]; exact e.symm
  have e3 : d ≡ 0 [MOD M] := Nat.ModEq.add_left_cancel' m e2
  have e4 : M ∣ d := (Nat.modEq_zero_iff_dvd).1 e3
  have := Nat.le_of_dvd (by omega) e4
  omega

theorem cyc_no_hit (K : Nat) (t : Nat → Int) (n : Nat) (row : List cacheline)
    (hinj : ∀ i i2, i ≤ K → i2 ≤ K → t i = t i2 → i = i2)
    (hR : ∀ j, j < K → lineAt row j = cyc_line K t n j) :
    hit_scan row (t (n % (K + 1))) K 0 = none := by
  rw [hit_scan_none]
  intro j _ hj hM
  have hjK : j < K := by omega
  unfold Matches at hM
  rw [hR j hjK] at hM
  unfold cyc_line at hM
  by_cases hjn : j < n
  · rw [if_pos hjn] at hM
    have hle : (n - 1 - j) % K ≤ n - 1 - j := Nat.mod_le _ _
    have hr : (n - 1 - j) % K < K := Nat.mod_lt _ (by omega)
    have e := hinj _ _ (Nat.lt_succ_iff.1 (Nat.mod_lt _ (Nat.succ_pos K)))
      (Nat.lt_succ_iff.1 (Nat.mod_lt _ (Nat.succ_pos K))) hM.1
    exact mod_ne_of_gap (K + 1) (n - 1 - (n - 1 - j) % K) ((n - 1 - j) % K + 1) n
      (by omega) (by omega) (by omega) e
  · rw [if_neg hjn] at hM
    exact absurd hM.2 (by simp)

theorem cyc_victim (K : Nat) (t : Nat → Int) (n : Nat) (row : List cacheline) (hK : 0 < K)
    (hR : ∀ j, j < K → lineAt row j = cyc_line K t n j) :
    find_lowind K row = n % K := by
  have hv : n % K < K := Nat.mod_lt _ hK
  by_cases hn : n < K
  · have hmod : n % K = n := Nat.mod_eq_of_lt hn
    apply find_lowind_eq K row _ hv
    · intro j hj
      rw [hR _ hv, hR j hj, hmod]
      unfold cyc_line
      rw [if_neg (Nat.lt_irrefl n)]
      by_cases hjn : j < n
      · rw [if_pos hjn]
        have hr : (n - 1 - j) % K < K := Nat.mod_lt _ hK
        simp only
        omega
      · rw [if_neg hjn]
    · intro j hj
      rw [hmod] at hj
      rw [hR _ hv, hR j (by omega), hmod]
      unfold cyc_line
      rw [if_neg (Nat.lt_irrefl n), if_pos hj]
      have hr : (n - 1 - j) % K < K := Nat.mod_lt _ hK
      simp only
      omega
  · have hKn : K ≤ n := by omega
    have hvn : n % K < n := by omega
    have hage := age_of_victim K n hK hKn
    apply find_lowind_eq K row _ hv
    · intro j hj
      rw [hR _ hv, hR j hj]
      unfold cyc_line
      rw [if_pos hvn, if_pos (by omega), hage]
      have hr : (n - 1 - j) % K < K := Nat.mod_lt _ hK
      simp only
      omega
    · intro j hj
      rw [hR _ hv, hR j (by omega)]
      unfold cyc_line
      rw [if_pos hvn, if_pos (by omega), hage]
      have hr : (n - 1 - j) % K < K := Nat.mod_lt _ hK
      have hne : (n - 1 - j) % K ≠ K - 1 := by
        intro e
        have := victim_of_age K n j (by omega) (by omega) e
        omega
      simp only
      omega

theorem cyc_victim_valid (K : Nat) (t : Nat → Int) (n : Nat) (row : List cacheline)
    (hK : 0 < K) (hR : ∀ j, j < K → lineAt row j = cyc_line K t n j) :
    (lineAt row (n % K)).valid = decide (K ≤ n) := by
  have hv : n % K < K := Nat.mod_lt _ hK
  rw [hR _ hv]
  unfold cyc_line
  by_cases hn : n < K
  · rw [Nat.mod_eq_of_lt hn, if_neg (Nat.lt_irrefl n)]
    simp; omega
  · rw [if_pos (by omega)]
    simp; omega

theorem cyc_victim_tag (K : Nat) (t : Nat → Int) (n : Nat) (row : List cacheline)
    (hK : 0 < K) (hn : K ≤ n) (hR : ∀ j, j < K → lineAt row j = cyc_line K t n j) :
    (lineAt row (n % K)).tag = t ((n + 1) % (K + 1)) := by
  have hv : n % K < K := Nat.mod_lt _ hK
  rw [hR _ hv]
  unfold cyc_line
  rw [if_pos (by omega), age_of_victim K n hK hn]
  have e : n + 1 = (n - 1 - (K - 1)) + (K + 1) := by omega
  have e2 : (n + 1) % (K + 1) = (n - 1 - (K - 1)) % (K + 1) := by
    rw [e, Nat.add_mod_right]
  rw [e2]

theorem cyc_next (K : Nat) (t : Nat → Int) (n : Nat) (row : List cacheline) (hK : 0 < K)
    (hlen : row.length = K) (hR : ∀ j, j < K → lineAt row j = cyc_line K t n j)
    (j : Nat) (hj : j < K) :
    lineAt (miss_row K row (t (n % (K + 1)))) j = cyc_line K t (n + 1) j := by
  rw [lineAt_miss_row K row _ j hlen hj, cyc_victim K t n row hK hR]
  by_cases e : j = n % K
  · rw [if_pos e]
    have hjn : j < n + 1 := by
      have := Nat.mod_le n K; omega
    unfold cyc_line
    rw [if_pos hjn]
    have h1 : n + 1 - 1 - j = n - j := by omega
    have h2 : (n - j) % K = 0 := by rw [e]; exact sub_mod_self K n
    have h3 : n + 1 - 1 = n := by omega
    rw [h1, h2, h3]
    simp
  · rw [if_neg e, hR j hj]
    unfold cyc_line
    by_cases hjn : j < n
    · obtain ⟨_, hs⟩ := mod_succ_of_ne K n j hj (by omega) e
      have hle : (n - 1 - j) % K ≤ n - 1 - j := Nat.mod_le _ _
      rw [if_pos hjn, if_pos (by omega)]
      have h1 : n + 1 - 1 - j = n - j := by omega
      have h3 : n + 1 - 1 - ((n - 1 - j) % K + 1) = n - 1 - (n - 1 - j) % K := by omega
      rw [h1, hs, h3]
      simp only [cacheline.mk.injEq, true_and]
      push_cast
      omega
    · have hnK : n < K := by omega
      rw [Nat.mod_eq_of_lt hnK] at e
      rw [if_neg hjn, if_neg (by omega)]
      simp only [cacheline.mk.injEq, true_and]
      push_cast
      omega

theorem cyc_succ (a : Nat → Nat) (K n : Nat) :
    cyc a K (n + 1) = cyc a K n ++ [a (n % (K + 1))] := by
  unfold cyc
  rw [List.range_succ, List.map_append]
  rfl

/-- The state after `n` accesses of the cyclic pattern: no hit, `n` misses, `n - K`
evictions, and the lines of the set as described by `cyc_line`. -/
theorem cyc_state (cfg : Config) (a : Nat → Nat) (hv : Validated cfg)
    (hset : ∀ i, i ≤ cfg.K → set_ind cfg (a i) = set_ind cfg (a 0))
    (hinj : ∀ i i2, i ≤ cfg.K → i2 ≤ cfg.K → tag_of cfg (a i) = tag_of cfg (a i2) → i = i2)
    (n : Nat) :
    WellFormed cfg (run cfg (cyc a cfg.K n) (allocate_cache cfg)) ∧
    (run cfg (cyc a cfg.K n) (allocate_cache cfg)).hit_count = 0 ∧
    (run cfg (cyc a cfg.K n) (allocate_cache cfg)).miss_count = (n : Int) ∧
    (run cfg (cyc a cfg.K n) (allocate_cache cfg)).eviction_count = ((n - cfg.K : Nat) : Int) ∧
    ∀ j, j < cfg.K →
      lineAt (rowAt (run cfg (cyc a cfg.K n) (allocate_cache cfg)) (set_ind cfg (a 0)).toNat) j =
        cyc_line cfg.K (fun i => tag_of cfg (a i)) n j := by
  have hK : 0 < cfg.K := hv.2.2.1
  have hsi := set_ind_toNat_lt cfg hv (a 0)
  induction n with
  | zero =>
    refine ⟨wellFormed_allocate cfg, rfl, rfl, by simp [cyc, run, allocate_cache],
      fun j _ => ?_⟩
    have : run cfg (cyc a cfg.K 0) (allocate_cache cfg) = allocate_cache cfg := rfl
    rw [this, rowAt_allocate cfg _ hsi, lineAt_replicate]
    simp [cyc_line, emptyLine]
  | succ n ih =>
    obtain ⟨hw, h1, h2, h3, hR⟩ := ih
    have hle : n % (cfg.K + 1) ≤ cfg.K := Nat.lt_succ_iff.1 (Nat.mod_lt _ (Nat.succ_pos _))
    have hs := hset _ hle
    have hlen := rowAt_length cfg _ hw _ hsi
    have hnohit := cyc_no_hit cfg.K (fun i => tag_of cfg (a i)) n _ hinj hR
    have hmiss : is_hit cfg (a (n % (cfg.K + 1)))
        (run cfg (cyc a cfg.K n) (allocate_cache cfg)) = false := by
      rw [is_hit_false_iff, hs]; exact hnohit
    have hvic : victim cfg (a (n % (cfg.K + 1)))
        (run cfg (cyc a cfg.K n) (allocate_cache cfg)) = n % cfg.K := by
      unfold victim target; rw [hs]
      exact cyc_victim cfg.K _ n _ hK hR
    have hev := miss_eviction_count cfg _ _ hv hw hmiss
    rw [hvic] at hev
    unfold target at hev
    rw [hs, cyc_victim_valid cfg.K _ n _ hK hR] at hev
    obtain ⟨c1, c2⟩ := access_data_counters_miss cfg _ _ hmiss
    rw [cyc_succ, run_append]
    have hrun : ∀ c, run cfg [a (n % (cfg.K + 1))] c = access_data cfg (a (n % (cfg.K + 1))) c :=
      fun _ => rfl
    rw [hrun]
    refine ⟨wellFormed_access_data cfg _ _ hv hw, by rw [c1, h1], by rw [c2, h2]; push_cast; ring,
      ?_, fun j hj => ?_⟩
    · rw [hev, h3]
      by_cases hKn : cfg.K ≤ n
      · simp only [hKn, decide_True, if_true]
        have : n + 1 - cfg.K = n - cfg.K + 1 := by omega
        rw [this]; push_cast; ring
      · simp only [hKn, decide_False, Bool.false_eq_true, if_false]
        have e1 : n - cfg.K = 0 := by omega
        have e2 : n + 1 - cfg.K = 0 := by omega
        rw [e1, e2]
    · rw [rowAt_access_data, hs, if_pos ⟨rfl, by rw [hw.1]; exact hsi⟩,
        row_step_miss cfg _ _ hnohit]
      exact cyc_next cfg.K _ n _ hK hlen hR j hj

/-- C12, as stated, fails for `K = 1`: with `S = K = B = 1` under LRU and the two
addresses `0, 1` (same set, tags `0` and `1`), the second access misses and evicts the
line holding tag `0`, which is the tag touched most recently (by the access just
before). -/
theorem lru_cyclic_direct_mapped_evicts_latest :
    cyc (fun i => i) 1 1 = [0] ∧
    is_hit ⟨1, 1, 1, Policy.LRU⟩ 1
      (run ⟨1, 1, 1, Policy.LRU⟩ [0] (allocate_cache ⟨1, 1, 1, Policy.LRU⟩)) = false ∧
    (lineAt (target ⟨1, 1, 1, Policy.LRU⟩ 1
        (run ⟨1, 1, 1, Policy.LRU⟩ [0] (allocate_cache ⟨1, 1, 1, Policy.LRU⟩)))
      (victim ⟨1, 1, 1, Policy.LRU⟩ 1
        (run ⟨1, 1, 1, Policy.LRU⟩ [0] (allocate_cache ⟨1, 1, 1, Policy.LRU⟩)))).valid = true ∧
    (lineAt (target ⟨1, 1, 1, Policy.LRU⟩ 1
        (run ⟨1, 1, 1, Policy.LRU⟩ [0] (allocate_cache ⟨1, 1, 1, Policy.LRU⟩)))
      (victim ⟨1, 1, 1, Policy.LRU⟩ 1
        (run ⟨1, 1, 1, Policy.LRU⟩ [0] (allocate_cache ⟨1, 1, 1, Policy.LRU⟩)))).tag =
      tag_of ⟨1, 1, 1, Policy.LRU⟩ 0 ∧
    (history ⟨1, 1, 1, Policy.LRU⟩ [0]).touch 0
      (victim ⟨1, 1, 1, Policy.LRU⟩ 1
        (run ⟨1, 1, 1, Policy.LRU⟩ [0] (allocate_cache ⟨1, 1, 1, Policy.LRU⟩))) = some 0 ∧
    (history ⟨1, 1, 1, Policy.LRU⟩ [0]).now = 1 ∧
    (run ⟨1, 1, 1, Policy.LRU⟩ [0, 1] (allocate_cache ⟨1, 1, 1, Policy.LRU⟩)).eviction_count = 1 := by
  decide

/-- C12, amended: under LRU, for a validated configuration and `K + 1` addresses
`a 0, ..., a K` of one set whose tags, as `access_data` decodes them, are pairwise
distinct, the cyclic pattern `a 0, a 1, ..., a K, a 0, ...` from the freshly allocated
cache makes every access a miss: after `n` accesses there are no hits, `n` misses and
`n - K` evictions.  Each of the first `K` misses fills an invalid line and counts no
eviction; each later miss counts an eviction and its victim holds the tag of the address
that comes next in the cycle, being the line touched earliest; and when `K ≥ 2` the victim
never holds the tag touched by the access just before. -/
theorem lru_cyclic_all_miss (cfg : Config) (a : Nat → Nat) (n : Nat) (hv : Validated cfg)
    (hp : cfg.policy = Policy.LRU)
    (hset : ∀ i, i ≤ cfg.K → set_ind cfg (a i) = set_ind cfg (a 0))
    (hinj : ∀ i, i ≤ cfg.K → ∀ i2, i2 ≤ cfg.K →
      tag_of cfg (a i) = tag_of cfg (a i2) → i = i2) :
    is_hit cfg (a (n % (cfg.K + 1))) (run cfg (cyc a cfg.K n) (allocate_cache cfg)) = false ∧
    (run cfg (cyc a cfg.K n) (allocate_cache cfg)).hit_count = 0 ∧
    (run cfg (cyc a cfg.K n) (allocate_cache cfg)).miss_count = (n : Int) ∧
    (run cfg (cyc a cfg.K n) (allocate_cache cfg)).eviction_count = ((n - cfg.K : Nat) : Int) ∧
    (n < cfg.K →
      (lineAt (target cfg (a (n % (cfg.K + 1))) (run cfg (cyc a cfg.K n) (allocate_cache cfg)))
        (victim cfg (a (n % (cfg.K + 1)))
          (run cfg (cyc a cfg.K n) (allocate_cache cfg)))).valid = false ∧
      (run cfg (cyc a cfg.K (n + 1)) (allocate_cache cfg)).eviction_count =
        (run cfg (cyc a cfg.K n) (allocate_cache cfg)).eviction_count) ∧
    (cfg.K ≤ n →
      (lineAt (target cfg (a (n % (cfg.K + 1))) (run cfg (cyc a cfg.K n) (allocate_cache cfg)))
        (victim cfg (a (n % (cfg.K + 1)))
          (run cfg (cyc a cfg.K n) (allocate_cache cfg)))).valid = true ∧
      (run cfg (cyc a cfg.K (n + 1)) (allocate_cache cfg)).eviction_count =
        (run cfg (cyc a cfg.K n) (allocate_cache cfg)).eviction_count + 1 ∧
      (lineAt (target cfg (a (n % (cfg.K + 1))) (run cfg (cyc a cfg.K n) (allocate_cache cfg)))
        (victim cfg (a (n % (cfg.K + 1)))
          (run cfg (cyc a cfg.K n) (allocate_cache cfg)))).tag =
        tag_of cfg (a ((n + 1) % (cfg.K + 1))) ∧
      (∃ τ, (history cfg (cyc a cfg.K n)).touch (set_ind cfg (a (n % (cfg.K + 1)))).toNat
            (victim cfg (a (n % (cfg.K + 1)))
              (run cfg (cyc a cfg.K n) (allocate_cache cfg))) = some τ ∧
        ∀ j, j < cfg.K →
          j ≠ victim cfg (a (n % (cfg.K + 1))) (run cfg (cyc a cfg.K n) (allocate_cache cfg)) →
          ∃ τ2, (history cfg (cyc a cfg.K n)).touch
              (set_ind cfg (a (n % (cfg.K + 1)))).toNat j = some τ2 ∧ τ < τ2) ∧
      (2 ≤ cfg.K →
        (lineAt (target cfg (a (n % (cfg.K + 1)))
            (run cfg (cyc a cfg.K n) (allocate_cache cfg)))
          (victim cfg (a (n % (cfg.K + 1)))
            (run cfg (cyc a cfg.K n) (allocate_cache cfg)))).tag ≠
          tag_of cfg (a ((n - 1) % (cfg.K + 1))))) := by
  have hK : 0 < cfg.K := hv.2.2.1
  have hinj2 : ∀ i i2, i ≤ cfg.K → i2 ≤ cfg.K →
      tag_of cfg (a i) = tag_of cfg (a i2) → i = i2 := fun i i2 h1 h2 => hinj i h1 i2 h2
  obtain ⟨hw, h1, h2, h3, hR⟩ := cyc_state cfg a hv hset hinj2 n
  have h3s := (cyc_state cfg a hv hset hinj2 (n + 1)).2.2.2.1
  have hle : n % (cfg.K + 1) ≤ cfg.K := Nat.lt_succ_iff.1 (Nat.mod_lt _ (Nat.succ_pos _))
  have hs := hset _ hle
  have hmiss : is_hit cfg (a (n % (cfg.K + 1)))
      (run cfg (cyc a cfg.K n) (allocate_cache cfg)) = false := by
    rw [is_hit_false_iff, hs]
    exact cyc_no_hit cfg.K (fun i => tag_of cfg (a i)) n _ hinj2 hR
  have htar : target cfg (a (n % (cfg.K + 1))) (run cfg (cyc a cfg.K n) (allocate_cache cfg)) =
      rowAt (run cfg (cyc a cfg.K n) (allocate_cache cfg)) (set_ind cfg (a 0)).toNat := by
    unfold target; rw [hs]
  have hvic : victim cfg (a (n % (cfg.K + 1)))
      (run cfg (cyc a cfg.K n) (allocate_cache cfg)) = n % cfg.K := by
    unfold victim; rw [htar]
    exact cyc_victim cfg.K _ n _ hK hR
  have hval := cyc_victim_valid cfg.K _ n _ hK hR
  refine ⟨hmiss, h1, h2, h3, fun hn => ?_, fun hn => ?_⟩
  · rw [hvic, htar, hval, h3s, h3]
    refine ⟨by simp; omega, ?_⟩
    have e1 : n - cfg.K = 0 := by omega
    have e2 : n + 1 - cfg.K = 0 := by omega
    rw [e1, e2]
  · rw [hvic, htar, hval, h3s, h3]
    refine ⟨by simp; omega, ?_, cyc_victim_tag cfg.K _ n _ hK hn hR, ?_, fun h2K => ?_⟩
    · have : n + 1 - cfg.K = n - cfg.K + 1 := by omega
      rw [this]; push_cast; ring
    · have hinv := HistInv_history cfg hv (cyc a cfg.K n)
      unfold HistInv at hinv
      rw [(history_c cfg _).1] at hinv
      have hrow := hinv.2 _ (set_ind_toNat_lt cfg hv (a 0))
      have hord : (history cfg (cyc a cfg.K n)).ord cfg = (history cfg (cyc a cfg.K n)).touch := by
        unfold Hist.ord; rw [hp]
      rw [hord] at hrow
      have hvv : (lineAt (rowAt (run cfg (cyc a cfg.K n) (allocate_cache cfg))
          (set_ind cfg (a 0)).toNat)
          (find_lowind cfg.K (rowAt (run cfg (cyc a cfg.K n) (allocate_cache cfg))
            (set_ind cfg (a 0)).toNat))).valid = true := by
        rw [cyc_victim cfg.K _ n _ hK hR, hval]; simp; omega
      obtain ⟨τ, hτ, hall⟩ := RowInv.victim_earliest hrow hK hvv
      rw [cyc_victim cfg.K _ n _ hK hR] at hτ hall
      rw [hs]
      refine ⟨τ, hτ, fun j hj hne => hall j hj hne ?_⟩
      rw [hR j hj]
      unfold cyc_line
      rw [if_pos (by omega)]
    · rw [cyc_victim_tag cfg.K _ n _ hK hn hR]
      intro e
      have e2 := hinj _ (Nat.lt_succ_iff.1 (Nat.mod_lt _ (Nat.succ_pos _))) _
        (Nat.lt_succ_iff.1 (Nat.mod_lt _ (Nat.succ_pos _))) e
      exact mod_ne_of_gap (cfg.K + 1) (n - 1) 2 (n + 1) (by omega) (by omega) (by omega) e2.symm

/-- The witness of C12 (amended): `S = 1, K = 2, B = 1`, addresses `0, 1, 2`; the fourth
access (`n = 3`, address `0`) misses. -/
theorem lru_cyclic_all_miss_witness :
    is_hit ⟨1, 2, 1, Policy.LRU⟩ 0
        (run ⟨1, 2, 1, Policy.LRU⟩ (cyc (fun i => i) 2 3)
          (allocate_cache ⟨1, 2, 1, Policy.LRU⟩)) = false ∧
    cyc (fun i => i) 2 3 = [0, 1, 2] :=
  ⟨(lru_cyclic_all_miss ⟨1, 2, 1, Policy.LRU⟩ (fun i => i) 3
      ⟨⟨0, by decide, rfl⟩, ⟨0, by decide, rfl⟩, by decide, by decide⟩ rfl
      (by decide) (by decide)).1, by decide⟩

end CacheLab
